import Mathlib

/-!
Verification of the Codeception test adapter's result pipeline, shallowly
embedded from the TypeScript sources:

* `StreamingTestExecutor` (streaming output classification): `processChunk`,
  `parseLine` and the stdout/stderr data handlers of `executeWithStreaming`.
* `JunitParser.parseTestCase` / `parseJUnitXml` (structured report parsing).
* `CodeceptionTestProvider.reconcileWithXmlResults`, `markUnseenTests` and
  `parseAndMarkChildren` (reconciliation and hierarchy marking).

JavaScript strings are modelled as lists of characters (`Str`).  The VSCode
`TestRun` state reported for a node is modelled as a map from item id to
`Outcome`, where each `run.started/passed/failed/skipped` call overwrites the
node's entry (last call wins), which is how the extension itself uses the
API (reconciliation re-reports a node to correct it).
-/

/-- Characters of a JS string. -/
abbrev Str := List Char

/-- Test-node outcome as surfaced through the VSCode `TestRun` API:
`run.started` reports `Running`, `run.passed` reports `Passed`, `run.failed`
reports `Failed`, `run.skipped` reports `Skipped`; a node never reported in
the run stays `Unset`. -/
inductive Outcome where
  | Unset
  | Running
  | Passed
  | Failed
  | Skipped
  deriving DecidableEq, Repr

/-- JS regex `\w` — ASCII word character (letter, digit or underscore). -/
def isWordChar (c : Char) : Bool := c.isAlphanum || c == '_'

/-- JS regex `\s` restricted to the ASCII whitespace characters (the inputs
classified here are single output lines, so the Unicode space classes of JS
`\s` are irrelevant). -/
def isWs (c : Char) : Bool :=
  c == ' ' || c == '\t' || c == '\n' || c == '\r' || c == '\x0b' || c == '\x0c'

/-- `String.prototype.trim()` restricted to ASCII whitespace. -/
def trimWs (l : Str) : Str :=
  ((l.dropWhile isWs).reverse.dropWhile isWs).reverse

/-- The STATUS vocabulary `OK|FAILED|PASSED|ERROR` shared by streaming
patterns 2 and 3 (matched case-insensitively; the four alternatives are
pairwise distinguishable by their first letter, so alternation order is
immaterial). -/
inductive StatusWord where
  | ok
  | failed
  | passed
  | error
  deriving DecidableEq, Repr

/-- Case-insensitive literal prefix test (a JS regex literal under the `/i`
flag; `Char.toLower` lower-cases exactly the ASCII letters, as
`String.prototype.toLowerCase` does on ASCII input). -/
def ciStarts : Str → Str → Bool
  | [], _ => true
  | _ :: _, [] => false
  | p :: ps, c :: cs => (p.toLower == c.toLower) && ciStarts ps cs

/-- Match the regex alternation `(OK|FAILED|PASSED|ERROR)` (under `/i`) as a
prefix of `l`.  The source regexes impose no trailing delimiter after the
status word. -/
def matchStatus (l : Str) : Option StatusWord :=
  if ciStarts "OK".data l then some .ok
  else if ciStarts "FAILED".data l then some .failed
  else if ciStarts "PASSED".data l then some .passed
  else if ciStarts "ERROR".data l then some .error
  else none

/-- `const passed = status === 'OK' || status === 'PASSED'` (after the
source's `toUpperCase()`). -/
def statusPassed : StatusWord → Bool
  | .ok => true
  | .passed => true
  | _ => false

/-- Pattern 1 `[✓✗]\s+(\w+)(?:\s+\([^)]+\))?` (unanchored): scan left to
right for the first glyph that is followed by at least one whitespace
character and at least one word character; the capture is the maximal word
run there.  The optional parenthesised qualifier group never constrains
success or the capture. -/
def p1Find : Str → Option Str
  | [] => none
  | c :: rest =>
    if c = '✓' || c = '✗' then
      let ws := rest.takeWhile isWs
      let w := (rest.dropWhile isWs).takeWhile isWordChar
      if !ws.isEmpty && !w.isEmpty then some w else p1Find rest
    else p1Find rest

/-- Pattern 2 `^(\w+):\s*(OK|FAILED|PASSED|ERROR)/i` (anchored).  The capture
is the maximal leading word run: backtracking cannot shorten it, since the
character after a shorter capture would be a word character, never `:`. -/
def matchColon (l : Str) : Option (Str × Bool) :=
  let name := l.takeWhile isWordChar
  if name.isEmpty then none
  else
    match l.dropWhile isWordChar with
    | ':' :: rest => (matchStatus (rest.dropWhile isWs)).map fun st => (name, statusPassed st)
    | _ => none

/-- Pattern 3 `^(\w+)\s+\([^)]+\)\s+\.\.\.\s+(OK|FAILED|PASSED|ERROR)/i`
(anchored).  Every greedy sub-pattern is followed by a character class
disjoint from it, so maximal-munch `takeWhile`/`dropWhile` is exact. -/
def matchVerbose (l : Str) : Option (Str × Bool) :=
  let name := l.takeWhile isWordChar
  if name.isEmpty then none
  else
    let r1 := l.dropWhile isWordChar
    if (r1.takeWhile isWs).isEmpty then none
    else
      match r1.dropWhile isWs with
      | '(' :: r2 =>
        if (r2.takeWhile (fun c => !(c == ')'))).isEmpty then none
        else
          match r2.dropWhile (fun c => !(c == ')')) with
          | ')' :: r3 =>
            if (r3.takeWhile isWs).isEmpty then none
            else
              match r3.dropWhile isWs with
              | '.' :: '.' :: '.' :: r4 =>
                if (r4.takeWhile isWs).isEmpty then none
                else (matchStatus (r4.dropWhile isWs)).map fun st => (name, statusPassed st)
              | _ => none
          | _ => none
      | _ => none

/-- The sub-pattern `\s+-\s+(\w+)` shared by the two TAP recognizers. -/
def dashName (l : Str) : Option Str :=
  if (l.takeWhile isWs).isEmpty then none
  else
    match l.dropWhile isWs with
    | '-' :: r =>
      if (r.takeWhile isWs).isEmpty then none
      else
        let w := (r.dropWhile isWs).takeWhile isWordChar
        if w.isEmpty then none else some w
    | _ => none

/-- Pattern 4 `^ok\s+\d+\s+-\s+(\w+)/i` (anchored). -/
def matchTapOk (l : Str) : Option Str :=
  if ciStarts "ok".data l then
    let r1 := l.drop 2
    if (r1.takeWhile isWs).isEmpty then none
    else
      let r2 := r1.dropWhile isWs
      if (r2.takeWhile Char.isDigit).isEmpty then none
      else dashName (r2.dropWhile Char.isDigit)
  else none

/-- Pattern 5 `^not\s+ok\s+\d+\s+-\s+(\w+)/i` (anchored); after `not\s+` the
remainder is exactly pattern 4's body. -/
def matchTapNotOk (l : Str) : Option Str :=
  if ciStarts "not".data l then
    let r1 := l.drop 3
    if (r1.takeWhile isWs).isEmpty then none
    else matchTapOk (r1.dropWhile isWs)
  else none

/-- Captures of `:([A-Za-z0-9_]+)` occurrences in a list, scanning left to
right: for each `:` followed by at least one word character, the maximal word
run after it. -/
def capsFrom : Str → List Str
  | [] => []
  | c :: rest =>
    if c = ':' then
      (let w := rest.takeWhile isWordChar
       if w.isEmpty then [] else [w]) ++ capsFrom rest
    else capsFrom rest

/-- Try `Test\s+[^\s]+:([A-Za-z0-9_]+)` at the start of `l`.  Backtracking
over the greedy `[^\s]+` selects the **last** `:` of the non-whitespace run
(at index at least 1, since `[^\s]+` needs one character before it) that is
followed by a word character; the capture is the maximal word run after that
colon. -/
def tryTestAt (l : Str) : Option Str :=
  if "Test".data.isPrefixOf l then
    let r1 := l.drop 4
    if (r1.takeWhile isWs).isEmpty then none
    else
      match (r1.dropWhile isWs).takeWhile (fun c => !(isWs c)) with
      | [] => none
      | _ :: runRest => (capsFrom runRest).getLast?
  else none

/-- Pattern 6 `Test\s+[^\s]+:([A-Za-z0-9_]+)` (unanchored): the regex engine
tries each start position left to right. -/
def p6Find : Str → Option Str
  | [] => none
  | c :: rest =>
    match tryTestAt (c :: rest) with
    | some cap => some cap
    | none => p6Find rest

/-- An outcome event as delivered through `options.onTestResult(testName,
passed, line)`. -/
structure StreamEvent where
  name : Str
  passed : Bool
  line : Str
  deriving DecidableEq, Repr

/-- `StreamingTestExecutor.parseLine`: the ordered regex cascade, first match
wins; an empty (trimmed) line is ignored.  Pattern 1's boolean comes from
`line.includes('✓')`, evaluated on the whole line. -/
def parseLine (line : Str) : Option StreamEvent :=
  if line.isEmpty then none
  else
    match p1Find line with
    | some name => some ⟨name, line.contains '✓', line⟩
    | none =>
      match matchColon line with
      | some (name, passed) => some ⟨name, passed, line⟩
      | none =>
        match matchVerbose line with
        | some (name, passed) => some ⟨name, passed, line⟩
        | none =>
          match matchTapOk line with
          | some name => some ⟨name, true, line⟩
          | none =>
            match matchTapNotOk line with
            | some name => some ⟨name, false, line⟩
            | none =>
              match p6Find line with
              | some name => some ⟨name, false, line⟩
              | none => none

/-- `buffer.split('\n')` followed by `pop()`: the pair of the complete lines
and the retained final (possibly empty) fragment. -/
def splitNl : Str → List Str × Str
  | [] => ([], [])
  | c :: rest =>
    let p := splitNl rest
    if c = '\n' then ([] :: p.1, p.2)
    else
      match p with
      | ([], buf) => ([], c :: buf)
      | (l :: ls, buf) => ((c :: l) :: ls, buf)

/-- Mutable state of a `StreamingTestExecutor` together with the outcome
events it has emitted so far.  Note there is one `lineBuffer`, a field of the
executor instance, not one per output channel. -/
structure ExecutorState where
  lineBuffer : Str
  stderrBuffer : Str
  events : List StreamEvent
  deriving DecidableEq, Repr

/-- `processChunk`: append the chunk to the carry-over buffer, split on
newline, retain the final incomplete fragment, and classify each complete
line after `trim()`. -/
def processChunk (st : ExecutorState) (chunk : Str) : ExecutorState :=
  let p := splitNl (st.lineBuffer ++ chunk)
  { st with
    lineBuffer := p.2
    events := st.events ++ p.1.filterMap (fun l => parseLine (trimWs l)) }

/-- The stdout `data` handler installed by `executeWithStreaming`
(forwarding to the display collaborator is not modelled). -/
def onStdoutData (st : ExecutorState) (data : Str) : ExecutorState :=
  processChunk st data

/-- The stderr `data` handler installed by `executeWithStreaming`: the chunk
is accumulated into `stderrBuffer` and then fed to the same `processChunk`
call — and hence the same `lineBuffer` — as stdout chunks. -/
def onStderrData (st : ExecutorState) (data : Str) : ExecutorState :=
  processChunk { st with stderrBuffer := st.stderrBuffer ++ data } data

/-- A freshly constructed executor: empty buffers, no events. -/
def initialExecutorState : ExecutorState := ⟨[], [], []⟩

/-- Feeding a sequence of chunks one at a time. -/
def processChunks (st : ExecutorState) (chunks : List Str) : ExecutorState :=
  chunks.foldl processChunk st

/-! ### Chunk-boundary independence (C6) -/

theorem splitNl_cons_nl (l : Str) :
    splitNl ('\n' :: l) = ([] :: (splitNl l).1, (splitNl l).2) := by
  simp [splitNl]

theorem splitNl_cons_ne {c : Char} (hc : c ≠ '\n') (l : Str) :
    splitNl (c :: l) =
      match splitNl l with
      | ([], buf) => ([], c :: buf)
      | (x :: xs, buf) => ((c :: x) :: xs, buf) := by
  simp [splitNl, hc]

theorem splitNl_append (a b : Str) :
    splitNl (a ++ b) =
      ((splitNl a).1 ++ (splitNl ((splitNl a).2 ++ b)).1,
       (splitNl ((splitNl a).2 ++ b)).2) := by
  induction a with
  | nil => simp [splitNl]
  | cons c a ih =>
    by_cases hc : c = '\n'
    · subst hc
      rw [List.cons_append, splitNl_cons_nl, splitNl_cons_nl, ih]
      simp
    · cases hp : splitNl a with
      | mk ls buf =>
        rw [List.cons_append, splitNl_cons_ne hc, splitNl_cons_ne hc, ih, hp]
        cases ls with
        | nil =>
          rw [List.cons_append, splitNl_cons_ne hc]
          cases hq : splitNl (buf ++ b) with
          | mk qs qbuf => cases qs <;> simp
        | cons x xs =>
          cases hq : splitNl (buf ++ b) with
          | mk qs qbuf => simp [hq]

theorem processChunk_append (st : ExecutorState) (a b : Str) :
    processChunk (processChunk st a) b = processChunk st (a ++ b) := by
  unfold processChunk
  simp only [← List.append_assoc]
  rw [splitNl_append (st.lineBuffer ++ a) b]
  simp [List.filterMap_append]

/-- C6 auxiliary: folding further chunks after one chunk equals one combined
chunk. -/
theorem processChunks_snoc_chunk (chunks : List Str) :
    ∀ (st : ExecutorState) (c : Str),
      processChunks (processChunk st c) chunks = processChunk st (c ++ chunks.flatten) := by
  induction chunks with
  | nil => intro st c; simp [processChunks]
  | cons d chunks ih =>
    intro st c
    simp only [processChunks, List.foldl_cons] at *
    rw [ih (processChunk st c) d, processChunk_append, List.flatten_cons]

/-- C6: feeding the chunks of a stream one at a time through `processChunk`
produces exactly the same executor state — in particular the same sequence of
classified outcome events — as feeding the whole stream as one chunk. -/
theorem chunk_boundary_independence (chunks : List Str) :
    processChunks initialExecutorState chunks
      = processChunk initialExecutorState chunks.flatten := by
  cases chunks with
  | nil => simp [processChunks, processChunk, splitNl, initialExecutorState]
  | cons c chunks =>
    simp only [processChunks, List.foldl_cons]
    rw [show (List.foldl processChunk (processChunk initialExecutorState c) chunks)
          = processChunks (processChunk initialExecutorState c) chunks from rfl,
        processChunks_snoc_chunk chunks initialExecutorState c, List.flatten_cons]

/-! ### Carry-over buffers and the two output channels (C8) -/

/-- C8 counterexample: `lineBuffer` is shared between the channels.  A
stdout chunk leaves the incomplete fragment `"✓ par"` in the carry-over
buffer; the next stderr chunk `"tial\n"` is appended to that same buffer,
clears it, and produces an outcome event whose identifier `"partial"`
concatenates the stdout fragment with the stderr bytes — refuting the claim
that a fragment from one channel is never concatenated with bytes of the
other. -/
theorem per_channel_buffer_counterexample :
    (onStdoutData initialExecutorState ('✓' :: ' ' :: 'p' :: 'a' :: 'r' :: [])).lineBuffer
        = '✓' :: ' ' :: 'p' :: 'a' :: 'r' :: []
      ∧ (onStderrData (onStdoutData initialExecutorState ('✓' :: ' ' :: 'p' :: 'a' :: 'r' :: []))
            ('t' :: 'i' :: 'a' :: 'l' :: '\n' :: [])).lineBuffer = []
      ∧ (onStderrData (onStdoutData initialExecutorState ('✓' :: ' ' :: 'p' :: 'a' :: 'r' :: []))
            ('t' :: 'i' :: 'a' :: 'l' :: '\n' :: [])).events
          = [⟨'p' :: 'a' :: 'r' :: 't' :: 'i' :: 'a' :: 'l' :: [], true,
              '✓' :: ' ' :: 'p' :: 'a' :: 'r' :: 't' :: 'i' :: 'a' :: 'l' :: []⟩] := by
  decide

/-- C8 amended: the executor keeps a **single** carry-over line buffer shared
by both channels — a chunk is split against the same `lineBuffer` and yields
the same events no matter which channel delivered it — while stderr chunks
are additionally accumulated verbatim into the separate `stderrBuffer`,
which plays no part in line assembly. -/
theorem single_shared_line_buffer (st : ExecutorState) (c : Str) :
    (onStderrData st c).lineBuffer = (onStdoutData st c).lineBuffer
      ∧ (onStderrData st c).events = (onStdoutData st c).events
      ∧ (onStdoutData st c).stderrBuffer = st.stderrBuffer
      ∧ (onStderrData st c).stderrBuffer = st.stderrBuffer ++ c := by
  simp [onStderrData, onStdoutData, processChunk]

/-! ### Classifier pattern lemmas (C7) -/

theorem takeWhile_app_all {p : Char → Bool} {t : Str} (r : Str)
    (h : ∀ c ∈ t, p c = true) : (t ++ r).takeWhile p = t ++ r.takeWhile p := by
  induction t with
  | nil => simp
  | cons c t ih =>
    simp only [List.cons_append, List.takeWhile_cons_of_pos (h c (by simp)), List.cons_inj_right]
    exact ih (fun x hx => h x (by simp [hx]))

theorem dropWhile_app_all {p : Char → Bool} {t : Str} (r : Str)
    (h : ∀ c ∈ t, p c = true) : (t ++ r).dropWhile p = r.dropWhile p := by
  induction t with
  | nil => simp
  | cons c t ih =>
    simp only [List.cons_append, List.dropWhile_cons_of_pos (h c (by simp))]
    exact ih (fun x hx => h x (by simp [hx]))

theorem takeWhile_all {p : Char → Bool} {t : Str} (h : ∀ c ∈ t, p c = true) :
    t.takeWhile p = t := by
  have := takeWhile_app_all [] h
  simpa using this

theorem dropWhile_all {p : Char → Bool} {t : Str} (h : ∀ c ∈ t, p c = true) :
    t.dropWhile p = [] := by
  have := dropWhile_app_all [] h
  simpa using this

theorem takeWhile_app_stop {p : Char → Bool} {t : Str} {c : Char} (r : Str)
    (h : ∀ x ∈ t, p x = true) (hc : p c = false) :
    (t ++ c :: r).takeWhile p = t := by
  rw [takeWhile_app_all _ h, List.takeWhile_cons_of_neg (by simp [hc]), List.append_nil]

theorem dropWhile_app_stop {p : Char → Bool} {t : Str} {c : Char} (r : Str)
    (h : ∀ x ∈ t, p x = true) (hc : p c = false) :
    (t ++ c :: r).dropWhile p = c :: r := by
  rw [dropWhile_app_all _ h, List.dropWhile_cons_of_neg (by simp [hc])]

theorem wordChar_ne {c d : Char} (h : isWordChar c = true) (hd : isWordChar d = false) :
    c ≠ d := by
  intro he
  subst he
  rw [h] at hd
  cases hd

theorem wordChar_not_ws {c : Char} (h : isWordChar c = true) : isWs c = false := by
  cases hw : isWs c
  · rfl
  · exfalso
    unfold isWs at hw
    simp only [Bool.or_eq_true, beq_iff_eq] at hw
    rcases hw with ((((h1 | h1) | h1) | h1) | h1) | h1 <;> subst h1 <;>
      exact absurd h (by decide)

theorem word_not_p1 {t : Str} (hall : ∀ c ∈ t, isWordChar c = true) :
    ∀ c ∈ t, ¬(c = '✓') ∧ ¬(c = '✗') := by
  intro c hc
  exact ⟨wordChar_ne (hall c hc) (by decide), wordChar_ne (hall c hc) (by decide)⟩

theorem p1Find_no_glyph {l : Str} (h : ∀ c ∈ l, ¬(c = '✓') ∧ ¬(c = '✗')) :
    p1Find l = none := by
  induction l with
  | nil => rfl
  | cons c l ih =>
    have hc := h c (by simp)
    simp only [p1Find, hc.1, hc.2]
    simp only [decide_False, Bool.or_self, Bool.false_eq_true, if_false]
    exact ih (fun x hx => h x (by simp [hx]))

theorem contains_false_of_word {t : Str} (hall : ∀ c ∈ t, isWordChar c = true)
    {d : Char} (hd : isWordChar d = false) : t.contains d = false := by
  induction t with
  | nil => rfl
  | cons c t ih =>
    have hne : ¬(d = c) := (wordChar_ne (hall c (by simp)) hd).symm
    have ht := ih (fun x hx => hall x (by simp [hx]))
    simp only [List.contains_cons, ht, Bool.or_false, beq_eq_false_iff_ne, ne_eq]
    exact hne

theorem capsFrom_append_no_colon {a : Str} (l : Str) (h : ∀ c ∈ a, ¬(c = ':')) :
    capsFrom (a ++ l) = capsFrom l := by
  induction a with
  | nil => rfl
  | cons c a ih =>
    simp only [List.cons_append, capsFrom, h c (by simp), if_false]
    exact ih (fun x hx => h x (by simp [hx]))

theorem capsFrom_no_colon {a : Str} (h : ∀ c ∈ a, ¬(c = ':')) :
    capsFrom a = [] := by
  have := capsFrom_append_no_colon [] h
  simpa using this

theorem takeWhile_ws_word {t : Str} (hall : ∀ c ∈ t, isWordChar c = true) :
    t.takeWhile isWs = [] := by
  cases t with
  | nil => rfl
  | cons c t => exact List.takeWhile_cons_of_neg (by simp [wordChar_not_ws (hall c (by simp))])

theorem dropWhile_ws_word {t : Str} (hall : ∀ c ∈ t, isWordChar c = true) :
    t.dropWhile isWs = t := by
  cases t with
  | nil => rfl
  | cons c t => exact List.dropWhile_cons_of_neg (by simp [wordChar_not_ws (hall c (by simp))])

theorem word_nonWs {t : Str} (hall : ∀ c ∈ t, isWordChar c = true) :
    ∀ c ∈ t, (!(isWs c)) = true := by
  intro c hc
  rw [wordChar_not_ws (hall c hc)]
  rfl

theorem glyphfree_append {a b : Str}
    (h1 : ∀ c ∈ a, ¬(c = '✓') ∧ ¬(c = '✗')) (h2 : ∀ c ∈ b, ¬(c = '✓') ∧ ¬(c = '✗')) :
    ∀ c ∈ a ++ b, ¬(c = '✓') ∧ ¬(c = '✗') := by
  intro c hc
  rcases List.mem_append.mp hc with h | h
  · exact h1 c h
  · exact h2 c h

theorem isEmpty_false_of_ne {t : Str} (hne : t ≠ []) : t.isEmpty = false := by
  cases t with
  | nil => exact absurd rfl hne
  | cons c t => rfl

theorem p1Find_glyph_cons (g : Char) (hg : g = '✓' ∨ g = '✗') {c0 : Char} {s' : Str}
    (hword : isWordChar c0 = true) :
    p1Find (g :: ' ' :: c0 :: s') = some ((c0 :: s').takeWhile isWordChar) := by
  have hgb : (decide (g = '✓') || decide (g = '✗')) = true := by
    rcases hg with h | h <;> simp [h]
  have hc0 : isWs c0 = false := wordChar_not_ws hword
  have ews : (c0 :: s').takeWhile isWs = [] :=
    List.takeWhile_cons_of_neg (by simp [hc0])
  have edw : (c0 :: s').dropWhile isWs = c0 :: s' :=
    List.dropWhile_cons_of_neg (by simp [hc0])
  have ews2 : (' ' :: (c0 :: s')).takeWhile isWs = ' ' :: (c0 :: s').takeWhile isWs :=
    List.takeWhile_cons_of_pos (by decide)
  have edw2 : (' ' :: (c0 :: s')).dropWhile isWs = (c0 :: s').dropWhile isWs :=
    List.dropWhile_cons_of_pos (by decide)
  simp only [p1Find, hgb, if_true, ews2, ews, edw2, edw]
  have : (c0 :: s').takeWhile isWordChar = c0 :: s'.takeWhile isWordChar :=
    List.takeWhile_cons_of_pos hword
  simp [this]

theorem parseLine_glyph_pass {t : Str} (hne : t ≠ []) (hall : ∀ c ∈ t, isWordChar c = true) :
    parseLine ('✓' :: ' ' :: t) = some ⟨t, true, '✓' :: ' ' :: t⟩ := by
  cases t with
  | nil => exact absurd rfl hne
  | cons c0 t0 =>
    have hw : isWordChar c0 = true := hall c0 (by simp)
    have hp1 : p1Find ('✓' :: ' ' :: c0 :: t0) = some ((c0 :: t0).takeWhile isWordChar) :=
      p1Find_glyph_cons '✓' (Or.inl rfl) hw
    rw [takeWhile_all hall] at hp1
    have hcont : (('✓' :: ' ' :: c0 :: t0).contains '✓') = true := by
      simp [List.contains_cons]
    simp [parseLine, hp1, hcont]

theorem parseLine_glyph_fail {t : Str} (hne : t ≠ []) (hall : ∀ c ∈ t, isWordChar c = true) :
    parseLine ('✗' :: ' ' :: t) = some ⟨t, false, '✗' :: ' ' :: t⟩ := by
  cases t with
  | nil => exact absurd rfl hne
  | cons c0 t0 =>
    have hw : isWordChar c0 = true := hall c0 (by simp)
    have hp1 : p1Find ('✗' :: ' ' :: c0 :: t0) = some ((c0 :: t0).takeWhile isWordChar) :=
      p1Find_glyph_cons '✗' (Or.inr rfl) hw
    rw [takeWhile_all hall] at hp1
    have ht : (c0 :: t0).contains '✓' = false := contains_false_of_word hall (by decide)
    have hcont : (('✗' :: ' ' :: c0 :: t0).contains '✓') = false := by
      rw [List.contains_cons, List.contains_cons, ht]
      decide
    simp only [parseLine, List.isEmpty_cons, Bool.false_eq_true, if_false, hp1, hcont]

theorem parseLine_glyph_qualifier {t : Str} (hne : t ≠ [])
    (hall : ∀ c ∈ t, isWordChar c = true) :
    parseLine ('✓' :: ' ' :: (t ++ (" (Cls)").data))
      = some ⟨t, true, '✓' :: ' ' :: (t ++ (" (Cls)").data)⟩ := by
  cases t with
  | nil => exact absurd rfl hne
  | cons c0 t0 =>
    have hw : isWordChar c0 = true := hall c0 (by simp)
    have hcap : (c0 :: (t0 ++ (" (Cls)").data)).takeWhile isWordChar = c0 :: t0 := by
      have h := takeWhile_app_stop ("(Cls)".data) hall
        (show isWordChar ' ' = false by decide)
      exact h
    have hp1 : p1Find ('✓' :: ' ' :: c0 :: (t0 ++ (" (Cls)").data))
        = some ((c0 :: (t0 ++ (" (Cls)").data)).takeWhile isWordChar) :=
      p1Find_glyph_cons '✓' (Or.inl rfl) hw
    rw [hcap] at hp1
    have hcont : (('✓' :: ' ' :: c0 :: (t0 ++ (" (Cls)").data)).contains '✓') = true := by
      simp [List.contains_cons]
    have hgoal : parseLine ('✓' :: ' ' :: c0 :: (t0 ++ (" (Cls)").data))
        = some ⟨c0 :: t0, true, '✓' :: ' ' :: c0 :: (t0 ++ (" (Cls)").data)⟩ := by
      simp [parseLine, hp1, hcont]
    exact hgoal

theorem matchColon_word_app {t : Str} (hne : t ≠ []) (hall : ∀ c ∈ t, isWordChar c = true)
    (rest : Str) :
    matchColon (t ++ ':' :: rest)
      = (matchStatus (rest.dropWhile isWs)).map fun st => (t, statusPassed st) := by
  have e1 : (t ++ ':' :: rest).takeWhile isWordChar = t :=
    takeWhile_app_stop rest hall (by decide)
  have e2 : (t ++ ':' :: rest).dropWhile isWordChar = ':' :: rest :=
    dropWhile_app_stop rest hall (by decide)
  simp only [matchColon, e1, e2, isEmpty_false_of_ne hne]
  simp

theorem parseLine_colon {t : Str} (hne : t ≠ []) (hall : ∀ c ∈ t, isWordChar c = true)
    (rest : Str) {st : StatusWord}
    (hglyph : ∀ c ∈ ':' :: rest, ¬(c = '✓') ∧ ¬(c = '✗'))
    (hst : matchStatus (rest.dropWhile isWs) = some st) :
    parseLine (t ++ ':' :: rest) = some ⟨t, statusPassed st, t ++ ':' :: rest⟩ := by
  have hp1 : p1Find (t ++ ':' :: rest) = none :=
    p1Find_no_glyph (glyphfree_append (word_not_p1 hall) hglyph)
  have hc := matchColon_word_app hne hall rest
  rw [hst] at hc
  have hemp : (t ++ ':' :: rest).isEmpty = false := by
    cases t <;> rfl
  simp [parseLine, hemp, hp1, hc]

theorem matchVerbose_word {t : Str} (hne : t ≠ []) (hall : ∀ c ∈ t, isWordChar c = true)
    (S : Str) :
    matchVerbose (t ++ (' ' :: '(' :: 'C' :: ')' :: ' ' :: '.' :: '.' :: '.' :: ' ' :: S))
      = (matchStatus (S.dropWhile isWs)).map fun st => (t, statusPassed st) := by
  have e1 : (t ++ (' ' :: '(' :: 'C' :: ')' :: ' ' :: '.' :: '.' :: '.' :: ' ' :: S)).takeWhile
      isWordChar = t := takeWhile_app_stop _ hall (by decide)
  have e2 : (t ++ (' ' :: '(' :: 'C' :: ')' :: ' ' :: '.' :: '.' :: '.' :: ' ' :: S)).dropWhile
      isWordChar = ' ' :: '(' :: 'C' :: ')' :: ' ' :: '.' :: '.' :: '.' :: ' ' :: S :=
    dropWhile_app_stop _ hall (by decide)
  simp only [matchVerbose, e1, e2, isEmpty_false_of_ne hne]
  rfl

theorem parseLine_verbose {t : Str} (hne : t ≠ []) (hall : ∀ c ∈ t, isWordChar c = true)
    (S : Str) {st : StatusWord}
    (hSg : ∀ c ∈ S, ¬(c = '✓') ∧ ¬(c = '✗'))
    (hst : matchStatus (S.dropWhile isWs) = some st) :
    parseLine (t ++ (' ' :: '(' :: 'C' :: ')' :: ' ' :: '.' :: '.' :: '.' :: ' ' :: S))
      = some ⟨t, statusPassed st,
          t ++ (' ' :: '(' :: 'C' :: ')' :: ' ' :: '.' :: '.' :: '.' :: ' ' :: S)⟩ := by
  have hsfx : ∀ c ∈ (' ' :: '(' :: 'C' :: ')' :: ' ' :: '.' :: '.' :: '.' :: ' ' :: S),
      ¬(c = '✓') ∧ ¬(c = '✗') := by
    have h := glyphfree_append
      (show ∀ c ∈ [' ', '(', 'C', ')', ' ', '.', '.', '.', ' '], ¬(c = '✓') ∧ ¬(c = '✗')
        by decide) hSg
    exact h
  have hp1 : p1Find (t ++ (' ' :: '(' :: 'C' :: ')' :: ' ' :: '.' :: '.' :: '.' :: ' ' :: S))
      = none := p1Find_no_glyph (glyphfree_append (word_not_p1 hall) hsfx)
  have e1 : (t ++ (' ' :: '(' :: 'C' :: ')' :: ' ' :: '.' :: '.' :: '.' :: ' ' :: S)).takeWhile
      isWordChar = t := takeWhile_app_stop _ hall (by decide)
  have e2 : (t ++ (' ' :: '(' :: 'C' :: ')' :: ' ' :: '.' :: '.' :: '.' :: ' ' :: S)).dropWhile
      isWordChar = ' ' :: '(' :: 'C' :: ')' :: ' ' :: '.' :: '.' :: '.' :: ' ' :: S :=
    dropWhile_app_stop _ hall (by decide)
  have hcol : matchColon (t ++ (' ' :: '(' :: 'C' :: ')' :: ' ' :: '.' :: '.' :: '.' :: ' ' :: S))
      = none := by
    simp only [matchColon, e1, e2, isEmpty_false_of_ne hne]
    rfl
  have hverb := matchVerbose_word hne hall S
  rw [hst] at hverb
  have hemp : (t ++ (' ' :: '(' :: 'C' :: ')' :: ' ' :: '.' :: '.' :: '.' :: ' ' :: S)).isEmpty
      = false := by cases t <;> rfl
  simp only [parseLine, hemp, Bool.false_eq_true, if_false, hp1, hcol, hverb, Option.map_some]
  rfl

theorem matchTapOk_word {t : Str} (hne : t ≠ []) (hall : ∀ c ∈ t, isWordChar c = true) :
    matchTapOk (("ok 1 - ").data ++ t) = some t := by
  have e : matchTapOk (("ok 1 - ").data ++ t)
      = (if ((t.dropWhile isWs).takeWhile isWordChar).isEmpty then none
         else some ((t.dropWhile isWs).takeWhile isWordChar)) := rfl
  rw [e, dropWhile_ws_word hall, takeWhile_all hall, isEmpty_false_of_ne hne]
  simp

theorem parseLine_tap_ok {t : Str} (hne : t ≠ []) (hall : ∀ c ∈ t, isWordChar c = true) :
    parseLine (("ok 1 - ").data ++ t)
      = some ⟨t, true, ("ok 1 - ").data ++ t⟩ := by
  have hp1 : p1Find (("ok 1 - ").data ++ t) = none :=
    p1Find_no_glyph (glyphfree_append
      (show ∀ c ∈ ("ok 1 - ").data, ¬(c = '✓') ∧ ¬(c = '✗') by decide) (word_not_p1 hall))
  have hcol : matchColon (("ok 1 - ").data ++ t) = none := rfl
  have hverb : matchVerbose (("ok 1 - ").data ++ t) = none := rfl
  have htap := matchTapOk_word hne hall
  have hemp : (("ok 1 - ").data ++ t).isEmpty = false := rfl
  simp only [parseLine, hemp, Bool.false_eq_true, if_false, hp1, hcol, hverb, htap]

theorem parseLine_tap_not_ok {t : Str} (hne : t ≠ []) (hall : ∀ c ∈ t, isWordChar c = true) :
    parseLine (("not ok 1 - ").data ++ t)
      = some ⟨t, false, ("not ok 1 - ").data ++ t⟩ := by
  have hp1 : p1Find (("not ok 1 - ").data ++ t) = none :=
    p1Find_no_glyph (glyphfree_append
      (show ∀ c ∈ ("not ok 1 - ").data, ¬(c = '✓') ∧ ¬(c = '✗') by decide) (word_not_p1 hall))
  have hcol : matchColon (("not ok 1 - ").data ++ t) = none := rfl
  have hverb : matchVerbose (("not ok 1 - ").data ++ t) = none := rfl
  have htapok : matchTapOk (("not ok 1 - ").data ++ t) = none := rfl
  have htapnot : matchTapNotOk (("not ok 1 - ").data ++ t)
      = matchTapOk (("ok 1 - ").data ++ t) := rfl
  rw [matchTapOk_word hne hall] at htapnot
  have hemp : (("not ok 1 - ").data ++ t).isEmpty = false := rfl
  simp only [parseLine, hemp, Bool.false_eq_true, if_false, hp1, hcol, hverb, htapok, htapnot]

theorem tryTestAt_detailed {t : Str} (hne : t ≠ []) (hall : ∀ c ∈ t, isWordChar c = true) :
    tryTestAt ('T' :: (("est tests/unit/FooTest.php:").data ++ t)) = some t := by
  have e0 : tryTestAt ('T' :: (("est tests/unit/FooTest.php:").data ++ t))
      = (capsFrom (("ests/unit/FooTest.php").data
          ++ ':' :: t.takeWhile (fun c => !(isWs c)))).getLast? := rfl
  rw [takeWhile_all (word_nonWs hall)] at e0
  rw [capsFrom_append_no_colon (':' :: t)
    (show ∀ c ∈ ("ests/unit/FooTest.php").data, ¬(c = ':') by decide)] at e0
  have e1 : capsFrom (':' :: t)
      = (if (t.takeWhile isWordChar).isEmpty then [] else [t.takeWhile isWordChar])
          ++ capsFrom t := by
    simp [capsFrom]
  rw [takeWhile_all hall, isEmpty_false_of_ne hne,
    capsFrom_no_colon (fun c hc => wordChar_ne (hall c hc) (by decide))] at e1
  simp only [Bool.false_eq_true, if_false, List.append_nil] at e1
  rw [e1] at e0
  simpa using e0

theorem parseLine_detailed {t : Str} (hne : t ≠ []) (hall : ∀ c ∈ t, isWordChar c = true) :
    parseLine (("Test tests/unit/FooTest.php:").data ++ t)
      = some ⟨t, false, ("Test tests/unit/FooTest.php:").data ++ t⟩ := by
  have hp1 : p1Find (("Test tests/unit/FooTest.php:").data ++ t) = none :=
    p1Find_no_glyph (glyphfree_append
      (show ∀ c ∈ ("Test tests/unit/FooTest.php:").data, ¬(c = '✓') ∧ ¬(c = '✗') by decide)
      (word_not_p1 hall))
  have hcol : matchColon (("Test tests/unit/FooTest.php:").data ++ t) = none := rfl
  have hverb : matchVerbose (("Test tests/unit/FooTest.php:").data ++ t) = none := rfl
  have htapok : matchTapOk (("Test tests/unit/FooTest.php:").data ++ t) = none := rfl
  have htapnot : matchTapNotOk (("Test tests/unit/FooTest.php:").data ++ t) = none := rfl
  have hp6 : p6Find (("Test tests/unit/FooTest.php:").data ++ t) = some t := by
    show p6Find ('T' :: (("est tests/unit/FooTest.php:").data ++ t)) = some t
    simp only [p6Find, tryTestAt_detailed hne hall]
  have hemp : (("Test tests/unit/FooTest.php:").data ++ t).isEmpty = false := rfl
  simp only [parseLine, hemp, Bool.false_eq_true, if_false, hp1, hcol, hverb, htapok,
    htapnot, hp6]

/-- C7 counterexample: the line `"✗ t1 ✓"` matches pattern class 1 at the
failure glyph `✗` (the capture is `t1`), yet `parseLine` emits
`passed = true`, because the source computes the boolean as
`line.includes('✓')` over the whole line rather than from the glyph that
matched.  This refutes "emits passed=true iff the glyph is the success
glyph" as stated. -/
theorem classifier_glyph_counterexample :
    p1Find ('✗' :: ' ' :: 't' :: '1' :: ' ' :: '✓' :: []) = some ('t' :: '1' :: [])
      ∧ parseLine ('✗' :: ' ' :: 't' :: '1' :: ' ' :: '✓' :: [])
          = some ⟨'t' :: '1' :: [], true, '✗' :: ' ' :: 't' :: '1' :: ' ' :: '✓' :: []⟩ := by
  decide

/-- C7 (amended): for every complete line in one of the five pattern classes
(built over an arbitrary non-empty word-character identifier `t`), `parseLine`
applies the recognizers in the fixed priority with first match winning,
extracts exactly the identifier substring, and emits `passed = true` iff the
line contains the success glyph (pattern class 1 — the source tests
`line.includes('✓')`, not the matched glyph), STATUS is OK or PASSED
(case-insensitively), or the TAP line is `ok`; the detailed failure header
always yields a failure. -/
theorem classifier_pattern_contract (t : Str) (hne : t ≠ [])
    (hall : ∀ c ∈ t, isWordChar c = true) :
    parseLine ('✓' :: ' ' :: t) = some ⟨t, true, '✓' :: ' ' :: t⟩
    ∧ parseLine ('✗' :: ' ' :: t) = some ⟨t, false, '✗' :: ' ' :: t⟩
    ∧ parseLine ('✓' :: ' ' :: (t ++ (" (Cls)").data))
        = some ⟨t, true, '✓' :: ' ' :: (t ++ (" (Cls)").data)⟩
    ∧ parseLine (t ++ (": OK").data) = some ⟨t, true, t ++ (": OK").data⟩
    ∧ parseLine (t ++ (": passed").data) = some ⟨t, true, t ++ (": passed").data⟩
    ∧ parseLine (t ++ (": FAILED").data) = some ⟨t, false, t ++ (": FAILED").data⟩
    ∧ parseLine (t ++ (": error").data) = some ⟨t, false, t ++ (": error").data⟩
    ∧ parseLine (t ++ (" (C) ... OK").data) = some ⟨t, true, t ++ (" (C) ... OK").data⟩
    ∧ parseLine (t ++ (" (C) ... FAILED").data)
        = some ⟨t, false, t ++ (" (C) ... FAILED").data⟩
    ∧ parseLine (("ok 1 - ").data ++ t) = some ⟨t, true, ("ok 1 - ").data ++ t⟩
    ∧ parseLine (("not ok 1 - ").data ++ t) = some ⟨t, false, ("not ok 1 - ").data ++ t⟩
    ∧ parseLine (("Test tests/unit/FooTest.php:").data ++ t)
        = some ⟨t, false, ("Test tests/unit/FooTest.php:").data ++ t⟩ := by
  refine ⟨parseLine_glyph_pass hne hall, parseLine_glyph_fail hne hall,
    parseLine_glyph_qualifier hne hall, ?_, ?_, ?_, ?_, ?_, ?_,
    parseLine_tap_ok hne hall, parseLine_tap_not_ok hne hall,
    parseLine_detailed hne hall⟩
  · have h : parseLine (t ++ ':' :: (" OK").data)
        = some ⟨t, statusPassed .ok, t ++ ':' :: (" OK").data⟩ :=
      parseLine_colon hne hall ((" OK").data) (by decide) (by decide)
    exact h
  · have h : parseLine (t ++ ':' :: (" passed").data)
        = some ⟨t, statusPassed .passed, t ++ ':' :: (" passed").data⟩ :=
      parseLine_colon hne hall ((" passed").data) (by decide) (by decide)
    exact h
  · have h : parseLine (t ++ ':' :: (" FAILED").data)
        = some ⟨t, statusPassed .failed, t ++ ':' :: (" FAILED").data⟩ :=
      parseLine_colon hne hall ((" FAILED").data) (by decide) (by decide)
    exact h
  · have h : parseLine (t ++ ':' :: (" error").data)
        = some ⟨t, statusPassed .error, t ++ ':' :: (" error").data⟩ :=
      parseLine_colon hne hall ((" error").data) (by decide) (by decide)
    exact h
  · have h : parseLine (t ++ (' ' :: '(' :: 'C' :: ')' :: ' ' :: '.' :: '.' :: '.' :: ' '
          :: ("OK").data))
        = some ⟨t, statusPassed .ok, t ++ (' ' :: '(' :: 'C' :: ')' :: ' ' :: '.' :: '.'
          :: '.' :: ' ' :: ("OK").data)⟩ :=
      parseLine_verbose hne hall (("OK").data) (by decide) (by decide)
    exact h
  · have h : parseLine (t ++ (' ' :: '(' :: 'C' :: ')' :: ' ' :: '.' :: '.' :: '.' :: ' '
          :: ("FAILED").data))
        = some ⟨t, statusPassed .failed, t ++ (' ' :: '(' :: 'C' :: ')' :: ' ' :: '.' :: '.'
          :: '.' :: ' ' :: ("FAILED").data)⟩ :=
      parseLine_verbose hne hall (("FAILED").data) (by decide) (by decide)
    exact h

/-- C7 witness: the amended contract applied at the concrete identifier
`testLogin`. -/
theorem classifier_pattern_contract_witness :
    parseLine ('✓' :: ' ' :: ("testLogin").data)
      = some ⟨("testLogin").data, true, '✓' :: ' ' :: ("testLogin").data⟩ :=
  (classifier_pattern_contract ("testLogin").data (by decide) (by decide)).1

/-! ### JUnit report parsing (C10, C9) -/

/-- A value xml2js (with `explicitArray: false, mergeAttrs: true`) produces
for a `failure`/`error`/`skipped` child of a `testcase` element: either the
element's text content as a string — an *empty* element such as `<skipped/>`
becomes the empty string — or an object (when the element carries attributes
or structured content). -/
inductive XmlVal where
  | str (s : Str)
  | obj
  deriving DecidableEq, Repr

/-- JS truthiness of an optional xml2js child value: an absent child
(`undefined`) and the empty string are falsy; a non-empty string or any
object is truthy. -/
def truthy : Option XmlVal → Bool
  | none => false
  | some (.str s) => !s.isEmpty
  | some .obj => true

/-- A parsed `testcase` element (the fields the status logic reads). -/
structure Testcase where
  name : Str
  failure : Option XmlVal := none
  error : Option XmlVal := none
  skipped : Option XmlVal := none
  deriving DecidableEq, Repr

/-- The status component of `JUnitTestResult`. -/
inductive JStatus where
  | passed
  | failed
  | error
  | skipped
  deriving DecidableEq, Repr

/-- `JunitParser.parseTestCase` status assignment: start from `'passed'`,
then `if (testcase.failure) ...`, `if (testcase.error) ...`,
`if (testcase.skipped) ...` in order — each later truthy check overwrites the
earlier result. -/
def parseTestCase (tc : Testcase) : JStatus :=
  let s1 : JStatus := .passed
  let s2 := if truthy tc.failure then JStatus.failed else s1
  let s3 := if truthy tc.error then JStatus.error else s2
  if truthy tc.skipped then JStatus.skipped else s3

/-- C10 counterexample: a `testcase` with an *empty* `skipped` child — the
standard serialization `<skipped/>`, which xml2js renders as the empty
string — is assigned status `'passed'`, because `if (testcase.skipped)` is a
JS truthiness test and the empty string is falsy.  This refutes "any testcase
with a skipped child gets status 'skipped'" and "status 'passed' exactly when
the element has no failure, error, or skipped child" as stated. -/
theorem report_status_counterexample :
    (Testcase.mk ('t' :: []) none none (some (.str []))).skipped.isSome = true
      ∧ parseTestCase (Testcase.mk ('t' :: []) none none (some (.str []))) = JStatus.passed := by
  decide

/-- C10 (amended): `parseTestCase` assigns `'passed'` exactly when none of
the `failure`/`error`/`skipped` children is truthy (present and, if a plain
string, non-empty); the later checks override the earlier ones, so truthy
`failure` and `error` together yield `'error'`, and a truthy `skipped` yields
`'skipped'` regardless of the other children. -/
theorem report_status_precedence (tc : Testcase) :
    (parseTestCase tc = .passed ↔
      truthy tc.failure = false ∧ truthy tc.error = false ∧ truthy tc.skipped = false)
    ∧ (truthy tc.failure = true → truthy tc.error = true → truthy tc.skipped = false →
        parseTestCase tc = .error)
    ∧ (truthy tc.skipped = true → parseTestCase tc = .skipped)
    ∧ (truthy tc.failure = true → truthy tc.error = false → truthy tc.skipped = false →
        parseTestCase tc = .failed) := by
  cases hf : truthy tc.failure <;> cases he : truthy tc.error <;>
    cases hs : truthy tc.skipped <;> simp [parseTestCase, hf, he, hs]

/-- C10 witness: the amended precedence applied at a testcase with truthy
`failure` and `error` children and no `skipped` child. -/
theorem report_status_precedence_witness :
    parseTestCase (Testcase.mk ('t' :: []) (some .obj) (some .obj) none) = JStatus.error :=
  (report_status_precedence (Testcase.mk ('t' :: []) (some .obj) (some .obj) none)).2.1
    rfl rfl rfl

/-- `String.prototype.toLowerCase` on the ASCII range (`Char.toLower`
lower-cases exactly `A`–`Z`). -/
def strLower (s : Str) : Str := s.map Char.toLower

/-- Association-list update with JS `Map.set` semantics: an existing key
keeps its original insertion position (its value is replaced), a new key is
appended. -/
def mapSet (m : List (Str × JStatus)) (k : Str) (v : JStatus) : List (Str × JStatus) :=
  if (m.map Prod.fst).contains k then
    m.map (fun p => if p.1 = k then (k, v) else p)
  else m ++ [(k, v)]

/-- The entry-building loop of `JunitParser.parseJUnitXml`: for each testcase
with a truthy `name`, store its result under the name, the lower-cased name,
and — when the lower-cased name starts with `test` — the name with the first
four characters stripped, plus its lower-cased form. -/
def buildEntries (tcs : List Testcase) : List (Str × JStatus) :=
  tcs.foldl
    (fun m tc =>
      if tc.name.isEmpty then m
      else
        let st := parseTestCase tc
        let m1 := mapSet m tc.name st
        let m2 := mapSet m1 (strLower tc.name) st
        if ("test").data.isPrefixOf (strLower tc.name) then
          mapSet (mapSet m2 (tc.name.drop 4) st) (strLower (tc.name.drop 4)) st
        else m2)
    []

/-- `JunitParser.parseJUnitXml` reduced to its data flow: the XML text is
parsed before any result is recorded, so a malformed document makes
`parseStringAsync` throw, the `catch` swallows the exception, and the
accumulated — still empty — result map is returned. -/
def parseJUnitXmlModel (raw : Except Unit (List Testcase)) : List (Str × JStatus) :=
  match raw with
  | .error _ => []
  | .ok tcs => buildEntries tcs

/-! ### Reconciliation (C1, C9) -/

/-- The per-run reporting state that `reconcileWithXmlResults` mutates: the
`seenTests` set and the VSCode run state of every test item (keyed by item
id; each `run.*` call overwrites the item's entry). -/
structure RecState where
  seen : List Str
  runState : Str → Outcome

/-- One `run.*` call on one item. -/
def wrOutcome (st : Str → Outcome) (k : Str) (o : Outcome) : Str → Outcome :=
  fun x => if x = k then o else st x

/-- `run.passed` / `run.failed` according to a boolean verdict. -/
def boolOutcome (b : Bool) : Outcome := if b then .Passed else .Failed

/-- One iteration of the reconciliation loop of `reconcileWithXmlResults`
over one `[testName, xmlResult]` entry: skip lower-case-duplicate variants;
resolve through `testNameMap`; on a mismatch between `xmlPassed` and
`streamingPassed` (`testResults.get(testName)?.passed ?? true`) re-report the
item from the report; if the name is not in `seenTests`, additionally mark it
started, record it seen, and report the item from the report. -/
def reconcileStep (keys : List Str) (testNameMap : Str → Option Str)
    (testResults : Str → Option Bool) (rs : RecState) (e : Str × JStatus) : RecState :=
  if strLower e.1 ≠ e.1 ∧ keys.contains (strLower e.1) = true then rs
  else
    match testNameMap e.1 with
    | none => rs
    | some item =>
      let xmlPassed : Bool := e.2 == JStatus.passed
      let streamingPassed : Bool := (testResults e.1).getD true
      let rs1 := if xmlPassed ≠ streamingPassed
        then { rs with runState := wrOutcome rs.runState item (boolOutcome xmlPassed) }
        else rs
      if rs1.seen.contains e.1 then rs1
      else
        { seen := e.1 :: rs1.seen,
          runState := wrOutcome (wrOutcome rs1.runState item .Running) item
            (boolOutcome xmlPassed) }

/-- The reconciliation loop over the XML entry list (`xmlResults.has` checks
membership in the full map, hence the fixed `keys` parameter). -/
def reconcileEntries (entries : List (Str × JStatus)) (testNameMap : Str → Option Str)
    (testResults : Str → Option Bool) (rs0 : RecState) : RecState :=
  entries.foldl (reconcileStep (entries.map Prod.fst) testNameMap testResults) rs0

/-- `reconcileWithXmlResults` end to end: a missing report file, or a report
whose parse produced no entries (in particular a malformed report, whose
parse exception yields the empty map), leaves the state untouched; otherwise
the entry loop runs.  The surrounding `try`/`catch` means no error ever
reaches the caller. -/
def reconcileWithXml (xmlExists : Bool) (raw : Except Unit (List Testcase))
    (testNameMap : Str → Option Str) (testResults : Str → Option Bool)
    (rs : RecState) : RecState :=
  if !xmlExists then rs
  else
    let entries := parseJUnitXmlModel raw
    if entries.isEmpty then rs
    else reconcileEntries entries testNameMap testResults rs

/-- C9: reconciliation fails closed.  If the report file is absent after the
bounded wait, or present but malformed (the XML parser throws and
`parseJUnitXml` returns the empty map), or parsed but empty, reconciliation
returns the state unchanged: no already-recorded streaming outcome is altered
or discarded, and — being a total function into `RecState` — it raises
nothing to its caller. -/
theorem reconciliation_fails_closed (raw : Except Unit (List Testcase))
    (testNameMap : Str → Option Str) (testResults : Str → Option Bool) (rs : RecState) :
    reconcileWithXml false raw testNameMap testResults rs = rs
    ∧ reconcileWithXml true (.error ()) testNameMap testResults rs = rs
    ∧ reconcileWithXml true (.ok []) testNameMap testResults rs = rs :=
  ⟨rfl, rfl, rfl⟩

theorem boolOutcome_inj {a b : Bool} (h : boolOutcome a = boolOutcome b) : a = b := by
  cases a <;> cases b <;> simp_all [boolOutcome]

theorem reconcileStep_item_cases (keys : List Str) (tmap : Str → Option Str)
    (tres : Str → Option Bool) (rs : RecState) (p : Str × JStatus) (x : Str) :
    (reconcileStep keys tmap tres rs p).runState x = rs.runState x
    ∨ (tmap p.1 = some x ∧
        (reconcileStep keys tmap tres rs p).runState x
          = boolOutcome (p.2 == JStatus.passed)) := by
  unfold reconcileStep
  by_cases hskip : strLower p.1 ≠ p.1 ∧ keys.contains (strLower p.1) = true
  · left
    rw [if_pos hskip]
  · rw [if_neg hskip]
    cases hm : tmap p.1 with
    | none => left; rfl
    | some item =>
      by_cases hmis : ((p.2 == JStatus.passed) = ((tres p.1).getD true))
      · by_cases hseen : p.1 ∈ rs.seen
        · left
          simp [hmis, hseen]
        · by_cases hx : x = item
          · subst hx
            right
            exact ⟨rfl, by simp [hmis, hseen, wrOutcome]⟩
          · left
            simp [hmis, hseen, wrOutcome, hx]
      · by_cases hseen : p.1 ∈ rs.seen
        · by_cases hx : x = item
          · subst hx
            right
            exact ⟨rfl, by simp [hmis, hseen, wrOutcome]⟩
          · left
            simp [hmis, hseen, wrOutcome, hx]
        · by_cases hx : x = item
          · subst hx
            right
            exact ⟨rfl, by simp [hmis, hseen, wrOutcome]⟩
          · left
            simp [hmis, hseen, wrOutcome, hx]

theorem reconcileFold_stable (keys : List Str) (tmap : Str → Option Str)
    (tres : Str → Option Bool) (item : Str) (s : JStatus) :
    ∀ (es : List (Str × JStatus)) (rs : RecState),
      (∀ p ∈ es, tmap p.1 = some item → p.2 = s) →
      rs.runState item = boolOutcome (s == JStatus.passed) →
      (es.foldl (reconcileStep keys tmap tres) rs).runState item
        = boolOutcome (s == JStatus.passed) := by
  intro es
  induction es with
  | nil => exact fun rs _ h => h
  | cons p es ih =>
    intro rs hst h
    simp only [List.foldl_cons]
    refine ih _ (fun q hq => hst q (List.mem_cons_of_mem _ hq)) ?_
    rcases reconcileStep_item_cases keys tmap tres rs p item with hcase | ⟨hm, hval⟩
    · rw [hcase]
      exact h
    · rw [hval, hst p (by simp) hm]

theorem reconcileStep_forced (keys : List Str) (tmap : Str → Option Str)
    (tres : Str → Option Bool) (rs : RecState) (p : Str × JStatus) (item : Str)
    (hm : tmap p.1 = some item)
    (hskip : ¬(strLower p.1 ≠ p.1 ∧ keys.contains (strLower p.1) = true))
    (hforce : p.1 ∉ rs.seen ∨ ¬((p.2 == JStatus.passed) = ((tres p.1).getD true))) :
    (reconcileStep keys tmap tres rs p).runState item
      = boolOutcome (p.2 == JStatus.passed) := by
  unfold reconcileStep
  rw [if_neg hskip, hm]
  by_cases hmis : ((p.2 == JStatus.passed) = ((tres p.1).getD true))
  · have hseen : p.1 ∉ rs.seen := by
      rcases hforce with h | h
      · exact h
      · exact absurd hmis h
    simp [hmis, hseen, wrOutcome]
  · by_cases hseen : p.1 ∈ rs.seen
    · simp [hmis, hseen, wrOutcome]
    · simp [hmis, hseen, wrOutcome]

theorem reconcileStep_seen_new (keys : List Str) (tmap : Str → Option Str)
    (tres : Str → Option Bool) (rs : RecState) (p : Str × JStatus) (k : Str)
    (hk : k ∈ (reconcileStep keys tmap tres rs p).seen)
    (hold : k ∉ rs.seen) :
    k = p.1 ∧ ∃ item, tmap p.1 = some item ∧
      (reconcileStep keys tmap tres rs p).runState item
        = boolOutcome (p.2 == JStatus.passed) := by
  by_cases hskip : strLower p.1 ≠ p.1 ∧ keys.contains (strLower p.1) = true
  · exfalso
    unfold reconcileStep at hk
    rw [if_pos hskip] at hk
    exact absurd hk hold
  · cases hm : tmap p.1 with
    | none =>
      exfalso
      unfold reconcileStep at hk
      rw [if_neg hskip, hm] at hk
      exact absurd hk hold
    | some item =>
      have hseen : p.1 ∉ rs.seen := by
        intro hmem
        apply hold
        unfold reconcileStep at hk
        rw [if_neg hskip, hm] at hk
        by_cases hmis : ((p.2 == JStatus.passed) = ((tres p.1).getD true)) <;>
          simp [hmis, hmem] at hk <;> exact hk
      have hkeq : k = p.1 := by
        unfold reconcileStep at hk
        rw [if_neg hskip, hm] at hk
        by_cases hmis : ((p.2 == JStatus.passed) = ((tres p.1).getD true)) <;>
          simp [hmis, hseen] at hk <;> tauto
      exact ⟨hkeq, item, rfl,
        reconcileStep_forced keys tmap tres rs p item hm hskip (Or.inl hseen)⟩

theorem reconcileFold_main (keys : List Str) (tmap : Str → Option Str)
    (tres : Str → Option Bool) (item : Str) (s : JStatus) (b : Bool)
    (hbs : b ≠ (s == JStatus.passed)) :
    ∀ (es : List (Str × JStatus)) (rs : RecState),
      (∀ p ∈ es, tmap p.1 = some item → p.2 = s) →
      (rs.runState item = boolOutcome (s == JStatus.passed)
        ∨ (rs.runState item = boolOutcome b
            ∧ ∀ k, tmap k = some item → k ∈ rs.seen → tres k = some b)) →
      (∃ p ∈ es, tmap p.1 = some item
          ∧ ¬(strLower p.1 ≠ p.1 ∧ keys.contains (strLower p.1) = true)) →
      (es.foldl (reconcileStep keys tmap tres) rs).runState item
        = boolOutcome (s == JStatus.passed) := by
  intro es
  induction es with
  | nil =>
    intro rs _ _ hproc
    rcases hproc with ⟨p, hp, _⟩
    cases hp
  | cons p es ih =>
    intro rs hst hinv hproc
    simp only [List.foldl_cons]
    have hstes : ∀ q ∈ es, tmap q.1 = some item → q.2 = s :=
      fun q hq => hst q (List.mem_cons_of_mem _ hq)
    rcases hinv with htgt | ⟨hb, hcons⟩
    · -- the report outcome is already recorded: it stays
      refine reconcileFold_stable keys tmap tres item s es _ hstes ?_
      rcases reconcileStep_item_cases keys tmap tres rs p item with hcase | ⟨hm, hval⟩
      · rw [hcase]; exact htgt
      · rw [hval, hst p (by simp) hm]
    · by_cases hP : tmap p.1 = some item
        ∧ ¬(strLower p.1 ≠ p.1 ∧ keys.contains (strLower p.1) = true)
      · -- this entry resolves to the node and is processed: it writes the
        -- report outcome, which then stays
        refine reconcileFold_stable keys tmap tres item s es _ hstes ?_
        have hforce : p.1 ∉ rs.seen ∨ ¬((p.2 == JStatus.passed) = ((tres p.1).getD true)) := by
          by_cases hseen : p.1 ∈ rs.seen
          · right
            rw [hcons p.1 hP.1 hseen]
            intro hcontra
            rw [hst p (by simp) hP.1] at hcontra
            exact hbs hcontra.symm
          · exact Or.inl hseen
        rw [reconcileStep_forced keys tmap tres rs p item hP.1 hP.2 hforce,
          hst p (by simp) hP.1]
      · -- the entry does not decide this node: the invariant is preserved
        have hproc' : ∃ q ∈ es, tmap q.1 = some item
            ∧ ¬(strLower q.1 ≠ q.1 ∧ keys.contains (strLower q.1) = true) := by
          rcases hproc with ⟨q, hq, hq1, hq2⟩
          rcases List.mem_cons.mp hq with rfl | hq'
          · exact absurd ⟨hq1, hq2⟩ hP
          · exact ⟨q, hq', hq1, hq2⟩
        rcases reconcileStep_item_cases keys tmap tres rs p item with hcase | ⟨hm, hval⟩
        · -- run state unchanged: the seen-set bookkeeping still holds
          refine ih _ hstes (Or.inr ⟨hcase.trans hb, ?_⟩) hproc'
          intro k hk hkseen
          by_cases hkold : k ∈ rs.seen
          · exact hcons k hk hkold
          · exfalso
            rcases reconcileStep_seen_new keys tmap tres rs p k hkseen hkold
              with ⟨rfl, item2, hm2, hv2⟩
            rw [hk] at hm2
            have : item2 = item := by
              injection hm2.symm
            subst this
            rw [hcase.trans hb] at hv2
            have := boolOutcome_inj hv2
            rw [hst p (by simp) hk] at this
            exact hbs this
        · -- the entry wrote its own report outcome, which equals the target
          refine ih _ hstes (Or.inl ?_) hproc'
          rw [hval, hst p (by simp) hm]

/-- C1: reconciliation precedence.  For a node `item` that has a streaming
outcome (`rs0.runState item` is the terminal outcome recorded from streaming,
with `testResults`/`seenTests` bookkeeping consistent with it) and an entry
in the parsed report (some processed — not variant-deduplicated — entry of
`entries` resolves to it through `testNameMap`, and every entry resolving to
it carries the report status `s`), if streaming and report disagree then
after the reconciliation loop the node's reported outcome is the report's:
`Passed` iff the report status is `'passed'`, `Failed` otherwise. -/
theorem reconciliation_precedence (entries : List (Str × JStatus))
    (testNameMap : Str → Option Str) (testResults : Str → Option Bool)
    (rs0 : RecState) (item : Str) (s : JStatus) (b : Bool)
    (hstatus : ∀ p ∈ entries, testNameMap p.1 = some item → p.2 = s)
    (hentry : ∃ p ∈ entries, testNameMap p.1 = some item
        ∧ ¬(strLower p.1 ≠ p.1 ∧ (entries.map Prod.fst).contains (strLower p.1) = true))
    (hstream : rs0.runState item = boolOutcome b)
    (hcons : ∀ k, testNameMap k = some item → k ∈ rs0.seen → testResults k = some b)
    (hdis : b ≠ (s == JStatus.passed)) :
    (reconcileEntries entries testNameMap testResults rs0).runState item
      = boolOutcome (s == JStatus.passed) :=
  reconcileFold_main (entries.map Prod.fst) testNameMap testResults item s b hdis
    entries rs0 hstatus (Or.inr ⟨hstream, hcons⟩) hentry

/-- C1 witness: a node whose streaming outcome is `Passed` while the report
says `failed` ends up `Failed` after reconciliation. -/
theorem reconciliation_precedence_witness :
    (reconcileEntries [(['a'], JStatus.failed)]
        (fun k => if k = ['a'] then some ['i'] else none)
        (fun _ => none)
        ⟨[], fun x => if x = ['i'] then Outcome.Passed else Outcome.Unset⟩).runState ['i']
      = Outcome.Failed := by
  have h := reconciliation_precedence [(['a'], JStatus.failed)]
    (fun k => if k = ['a'] then some ['i'] else none)
    (fun _ => none)
    ⟨[], fun x => if x = ['i'] then Outcome.Passed else Outcome.Unset⟩
    ['i'] JStatus.failed true
    (by
      intro p hp hm
      rw [List.mem_singleton] at hp
      subst hp
      rfl)
    (⟨(['a'], JStatus.failed), by simp, by decide, by decide⟩)
    rfl
    (by
      intro k hk hkseen
      simp at hkseen)
    (by decide)
  exact h

/-! ### Hierarchy marking: parseAndMarkChildren and markUnseenTests (C2–C5) -/

/-- `extractMethodName`: `testId.split('::').pop() || ''`; JS `split` scans
left to right for the two-character separator `::`. -/
def splitCC : Str → List Str
  | [] => [[]]
  | ':' :: ':' :: rest => [] :: splitCC rest
  | c :: rest =>
    match splitCC rest with
    | [] => [[c]]
    | s :: ss => (c :: s) :: ss

/-- `extractMethodName(testId)`. -/
def extractMethodName (testId : Str) : Str := ((splitCC testId).getLast?).getD []

/-- JS `String.prototype.includes`: `needle` occurs as a contiguous substring
of `hay`. -/
def includesSub (hay needle : Str) : Bool :=
  match hay with
  | [] => needle.isEmpty
  | _ :: rest => needle.isPrefixOf hay || includesSub rest needle

/-- The result of `extractFatalErrorInfo` (§ the fatal-error extractor),
passed into the marking step. -/
structure FatalInfo where
  message : Str
  file : Option Str := none
  line : Option Nat := none
  deriving DecidableEq, Repr

/-- A child of the node passed to `parseAndMarkChildren`: a file-level item
(with its method ids as `methods`) or a leaf method item (`methods = []`,
mirroring `child.children.size === 0`).  `uriPath` is `child.uri?.fsPath`,
with the empty string standing for an absent uri (both are falsy where the
source tests `childFilePath &&`). -/
structure MChild where
  id : Str
  uriPath : Str
  methods : List Str
  deriving DecidableEq, Repr

/-- The inputs of one `parseAndMarkChildren` call.  `results` is the map
built by `parseTestResults` (name to passed; the diagnostic text does not
affect outcomes); `hasFatalError` is `detectFatalError(stdout, stderr)` and
`fatalInfo` is `extractFatalErrorInfo(stdout, stderr)`, abstracted as inputs
of the marking step. -/
structure PmcInput where
  parentId : Str
  children : List MChild
  results : List (Str × Bool)
  hasFatalError : Bool
  fatalInfo : Option FatalInfo
  hasFailures : Bool

/-- `testResults.get(name)` over the association list (keys are unique in a
JS `Map`; `find?` takes the first binding). -/
def mget (m : List (Str × Bool)) (k : Str) : Option Bool :=
  (m.find? (fun p => p.1 == k)).map (fun p => p.2)

/-- `childFilePath && childFilePath.includes(fatalErrorInfo.file || '')`. -/
def matchesFatal (fi : FatalInfo) (c : MChild) : Bool :=
  !c.uriPath.isEmpty && includesSub c.uriPath (fi.file.getD [])

/-- The accumulator threading `parseAndMarkChildren`'s mutable locals
(`foundAnyResults`, `allChildrenPassed`, `someChildrenFailed`,
`ranChildrenCount`) together with the run state. -/
structure AggSt where
  st : Str → Outcome
  found : Bool
  allPassed : Bool
  someFailed : Bool
  ranCount : Nat

/-- Early-abort branch, one child: only a file child whose path matches the
fatal error's file and that has methods is touched — it is started, all its
methods are started and failed, and the file itself is failed; every other
child is left exactly as it was. -/
def pmcEarlyChild (fi : FatalInfo) (acc : AggSt) (c : MChild) : AggSt :=
  if matchesFatal fi c && !c.methods.isEmpty then
    let st1 := wrOutcome acc.st c.id Outcome.Running
    let st2 := c.methods.foldl
      (fun s m => wrOutcome (wrOutcome s m Outcome.Running) m Outcome.Failed) st1
    { acc with
        st := wrOutcome st2 c.id Outcome.Failed
        found := true
        someFailed := true }
  else acc

/-- The per-file locals of the normal branch (`fileHadResults`,
`fileAllPassed`, `fileSomeFailed`, `fileRanCount`) on top of the outer
accumulator. -/
structure FileAgg where
  st : Str → Outcome
  fileHad : Bool
  fileAllPassed : Bool
  fileSomeFailed : Bool
  fileRan : Nat
  found : Bool
  allPassed : Bool
  someFailed : Bool
  ranCount : Nat

/-- Normal branch, one method of a file child: start it; a parsed result
marks it passed or failed; a method absent from the output is assumed to
have passed (and counts as having run). -/
def pmcMethod (results : List (Str × Bool)) (fa : FileAgg) (m : Str) : FileAgg :=
  let fa1 := { fa with st := wrOutcome fa.st m Outcome.Running }
  match mget results (extractMethodName m) with
  | some r =>
    if r then
      { fa1 with
          st := wrOutcome fa1.st m Outcome.Passed
          fileHad := true
          found := true
          ranCount := fa1.ranCount + 1
          fileRan := fa1.fileRan + 1 }
    else
      { fa1 with
          st := wrOutcome fa1.st m Outcome.Failed
          fileHad := true
          found := true
          ranCount := fa1.ranCount + 1
          fileRan := fa1.fileRan + 1
          fileAllPassed := false
          fileSomeFailed := true
          allPassed := false
          someFailed := true }
  | none =>
    { fa1 with
        st := wrOutcome fa1.st m Outcome.Passed
        fileHad := true
        ranCount := fa1.ranCount + 1
        fileRan := fa1.fileRan + 1 }

/-- Normal branch, one child of the parent. -/
def pmcNormalChild (results : List (Str × Bool)) (acc : AggSt) (c : MChild) : AggSt :=
  let st0 := wrOutcome acc.st c.id Outcome.Running
  if c.methods.isEmpty then
    match mget results (extractMethodName c.id) with
    | some r =>
      if r then
        { acc with
            st := wrOutcome st0 c.id Outcome.Passed
            found := true
            ranCount := acc.ranCount + 1 }
      else
        { acc with
            st := wrOutcome st0 c.id Outcome.Failed
            found := true
            ranCount := acc.ranCount + 1
            allPassed := false
            someFailed := true }
    | none =>
      { acc with
          st := wrOutcome st0 c.id Outcome.Passed
          ranCount := acc.ranCount + 1 }
  else
    let fa0 : FileAgg :=
      ⟨st0, false, true, false, 0, acc.found, acc.allPassed, acc.someFailed, acc.ranCount⟩
    let fa := c.methods.foldl (pmcMethod results) fa0
    let stFile :=
      if fa.fileHad then
        if fa.fileSomeFailed then wrOutcome fa.st c.id Outcome.Failed
        else if fa.fileAllPassed && fa.fileRan == c.methods.length then
          wrOutcome fa.st c.id Outcome.Passed
        else fa.st
      else fa.st
    ⟨stFile, fa.found, fa.allPassed, fa.someFailed, fa.ranCount⟩

/-- `child.children.size > 0 ? child.children.size : 1`, summed. -/
def totalChildren (children : List MChild) : Nat :=
  children.foldl (fun n c => n + (if c.methods.isEmpty then 1 else c.methods.length)) 0

/-- The parent marking at the end of `parseAndMarkChildren`: the parent is
failed when results were found and anything failed (or `hasFailures` is set),
passed only when results were found, everything passed, and every declared
leaf ran (`ranChildrenCount === totalChildren`), and left untouched
otherwise. -/
def pmcParentMark (inp : PmcInput) (acc : AggSt) : Str → Outcome :=
  if acc.found then
    if acc.someFailed || inp.hasFailures then
      wrOutcome acc.st inp.parentId Outcome.Failed
    else if acc.allPassed then
      if acc.ranCount == totalChildren inp.children then
        wrOutcome acc.st inp.parentId Outcome.Passed
      else acc.st
    else acc.st
  else acc.st

/-- `parseAndMarkChildren`: the early-abort branch runs when a fatal error
was detected, no leaf outcome was parsed (`testResults.size === 0`) and the
fatal-error info was extractable (`executionStoppedEarly && fatalErrorInfo`
are both truthy); otherwise the normal branch marks every child.  The parent
is then marked by `pmcParentMark`. -/
def pmc (inp : PmcInput) (st0 : Str → Outcome) : Str → Outcome :=
  let acc0 : AggSt := ⟨st0, false, true, false, 0⟩
  match (if inp.hasFatalError && inp.results.isEmpty then inp.fatalInfo else none) with
  | some fi => pmcParentMark inp (inp.children.foldl (pmcEarlyChild fi) acc0)
  | none => pmcParentMark inp (inp.children.foldl (pmcNormalChild inp.results) acc0)

/-- `markUnseenTests`: iterate `testNameMap` (an association list of name
variant to item id); every entry whose name is not in `seenTests` has its
item started and passed. -/
def markUnseenTests (entries : List (Str × Str)) (seen : List Str)
    (st : Str → Outcome) : Str → Outcome :=
  entries.foldl
    (fun s e =>
      if e.1 ∈ seen then s
      else wrOutcome (wrOutcome s e.2 Outcome.Running) e.2 Outcome.Passed)
    st

/-- C4: what the cancellation path actually does.  When the user cancels a
streaming run, `executeTestWithStreaming` invokes `markUnseenTests` (under
the comment "Mark remaining tests as skipped"); but `markUnseenTests` calls
`run.passed` on every not-yet-seen test, so a node with no terminal outcome
at cancellation ends up `Passed`, not `Skipped`. -/
theorem cancellation_marks_unseen_passed :
    markUnseenTests [(['t', 'F'], ['i', '1'])] [] (fun _ => Outcome.Unset) ['i', '1']
        = Outcome.Passed
      ∧ markUnseenTests [(['t', 'F'], ['i', '1'])] [] (fun _ => Outcome.Unset) ['i', '1']
        ≠ Outcome.Skipped := by
  decide

theorem wrOutcome_same (st : Str → Outcome) (k : Str) (o : Outcome) :
    wrOutcome st k o k = o := by
  simp [wrOutcome]

theorem wrOutcome_other (st : Str → Outcome) (k : Str) (o : Outcome) (x : Str)
    (h : x ≠ k) : wrOutcome st k o x = st x := by
  simp [wrOutcome, h]

/-- The item ids a child of `parseAndMarkChildren` can report on. -/
def ChildIds (c : MChild) : List Str := c.id :: c.methods

/-- Two children report on disjoint id sets. -/
def IdsDisjoint (a b : MChild) : Prop := ∀ x ∈ ChildIds a, x ∉ ChildIds b

/-- Well-formedness of the test tree handed to `parseAndMarkChildren`: all
VSCode test-item ids are distinct (ids are path-like composites, unique by
construction during discovery). -/
def DistinctIds (inp : PmcInput) : Prop :=
  (∀ c ∈ inp.children, (ChildIds c).Nodup)
  ∧ inp.children.Pairwise IdsDisjoint
  ∧ ∀ c ∈ inp.children, inp.parentId ∉ ChildIds c

theorem earlyMethods_frame :
    ∀ (ms : List Str) (s : Str → Outcome) (x : Str), x ∉ ms →
      (ms.foldl (fun s m => wrOutcome (wrOutcome s m Outcome.Running) m Outcome.Failed) s) x
        = s x := by
  intro ms
  induction ms with
  | nil => intro s x _; rfl
  | cons a ms ih =>
    intro s x hx
    simp only [List.foldl_cons]
    have hxa : x ≠ a := fun h => hx (by rw [h]; exact List.mem_cons_self a ms)
    rw [ih _ _ (fun h => hx (List.mem_cons_of_mem _ h)),
      wrOutcome_other _ _ _ _ hxa, wrOutcome_other _ _ _ _ hxa]

theorem earlyMethods_mem :
    ∀ (ms : List Str) (s : Str → Outcome) (m : Str), m ∈ ms →
      (ms.foldl (fun s m => wrOutcome (wrOutcome s m Outcome.Running) m Outcome.Failed) s) m
        = Outcome.Failed := by
  intro ms
  induction ms with
  | nil => intro s m h; cases h
  | cons a ms ih =>
    intro s m hm
    simp only [List.foldl_cons]
    by_cases hmem : m ∈ ms
    · exact ih _ _ hmem
    · have hma : m = a := by
        rcases List.mem_cons.mp hm with h | h
        · exact h
        · exact absurd h hmem
      subst hma
      rw [earlyMethods_frame _ _ _ hmem, wrOutcome_same]

theorem pmcEarlyChild_st_frame (fi : FatalInfo) (acc : AggSt) (c : MChild) (x : Str)
    (hx : x ∉ ChildIds c) :
    (pmcEarlyChild fi acc c).st x = acc.st x := by
  have hxid : x ≠ c.id := fun h => hx (h ▸ List.mem_cons_self _ _)
  have hxm : x ∉ c.methods := fun h => hx (List.mem_cons_of_mem _ h)
  unfold pmcEarlyChild
  by_cases h : (matchesFatal fi c && !c.methods.isEmpty) = true
  · simp only [if_pos h]
    rw [wrOutcome_other _ _ _ _ hxid, earlyMethods_frame _ _ _ hxm,
      wrOutcome_other _ _ _ _ hxid]
  · simp [h]

theorem pmcEarlyChild_skip (fi : FatalInfo) (acc : AggSt) (c : MChild)
    (h : ¬((matchesFatal fi c && !c.methods.isEmpty) = true)) :
    pmcEarlyChild fi acc c = acc := by
  unfold pmcEarlyChild
  simp [h]

theorem pmcEarlyChild_hit (fi : FatalInfo) (acc : AggSt) (c : MChild)
    (h : (matchesFatal fi c && !c.methods.isEmpty) = true) (hid : c.id ∉ c.methods) :
    (pmcEarlyChild fi acc c).st c.id = Outcome.Failed
    ∧ ∀ m ∈ c.methods, (pmcEarlyChild fi acc c).st m = Outcome.Failed := by
  unfold pmcEarlyChild
  simp only [if_pos h]
  constructor
  · exact wrOutcome_same _ _ _
  · intro m hm
    have hma : m ≠ c.id := fun heq => hid (heq ▸ hm)
    rw [wrOutcome_other _ _ _ _ hma]
    exact earlyMethods_mem _ _ _ hm

theorem pmcEarlyChild_found (fi : FatalInfo) (acc : AggSt) (c : MChild) :
    (pmcEarlyChild fi acc c).found
      = (acc.found || (matchesFatal fi c && !c.methods.isEmpty)) := by
  unfold pmcEarlyChild
  by_cases h : (matchesFatal fi c && !c.methods.isEmpty) = true <;> simp [h]

theorem pmcEarlyChild_flags (fi : FatalInfo) (acc : AggSt) (c : MChild) :
    (pmcEarlyChild fi acc c).allPassed = acc.allPassed
    ∧ (pmcEarlyChild fi acc c).ranCount = acc.ranCount
    ∧ ((pmcEarlyChild fi acc c).someFailed
        = (acc.someFailed || (matchesFatal fi c && !c.methods.isEmpty))) := by
  unfold pmcEarlyChild
  by_cases h : (matchesFatal fi c && !c.methods.isEmpty) = true <;> simp [h]

theorem earlyFold_found (fi : FatalInfo) :
    ∀ (cs : List MChild) (acc : AggSt),
      (cs.foldl (pmcEarlyChild fi) acc).found
        = (acc.found || cs.any (fun c => matchesFatal fi c && !c.methods.isEmpty)) := by
  intro cs
  induction cs with
  | nil => intro acc; simp
  | cons a cs ih =>
    intro acc
    simp only [List.foldl_cons, List.any_cons]
    rw [ih, pmcEarlyChild_found, Bool.or_assoc]

theorem earlyFold_flags (fi : FatalInfo) :
    ∀ (cs : List MChild) (acc : AggSt),
      (cs.foldl (pmcEarlyChild fi) acc).allPassed = acc.allPassed
      ∧ (cs.foldl (pmcEarlyChild fi) acc).ranCount = acc.ranCount
      ∧ (cs.foldl (pmcEarlyChild fi) acc).someFailed
          = (acc.someFailed || cs.any (fun c => matchesFatal fi c && !c.methods.isEmpty)) := by
  intro cs
  induction cs with
  | nil => intro acc; simp
  | cons a cs ih =>
    intro acc
    simp only [List.foldl_cons, List.any_cons]
    rcases ih (pmcEarlyChild fi acc a) with ⟨h1, h2, h3⟩
    rcases pmcEarlyChild_flags fi acc a with ⟨g1, g2, g3⟩
    refine ⟨h1.trans g1, h2.trans g2, ?_⟩
    rw [h3, g3, Bool.or_assoc]

theorem earlyFold_frame_all (fi : FatalInfo) :
    ∀ (cs : List MChild) (acc : AggSt) (x : Str),
      (∀ c ∈ cs, x ∉ ChildIds c) →
      (cs.foldl (pmcEarlyChild fi) acc).st x = acc.st x := by
  intro cs
  induction cs with
  | nil => intro acc x _; rfl
  | cons a cs ih =>
    intro acc x hx
    simp only [List.foldl_cons]
    rw [ih _ _ (fun c hc => hx c (List.mem_cons_of_mem _ hc)),
      pmcEarlyChild_st_frame _ _ _ _ (hx a (List.mem_cons_self a cs))]

theorem earlyFold_frame_cond (fi : FatalInfo) :
    ∀ (cs : List MChild) (acc : AggSt) (x : Str),
      (∀ c ∈ cs, x ∈ ChildIds c → ¬((matchesFatal fi c && !c.methods.isEmpty) = true)) →
      (cs.foldl (pmcEarlyChild fi) acc).st x = acc.st x := by
  intro cs
  induction cs with
  | nil => intro acc x _; rfl
  | cons a cs ih =>
    intro acc x hx
    simp only [List.foldl_cons]
    rw [ih _ _ (fun c hc => hx c (List.mem_cons_of_mem _ hc))]
    by_cases hmem : x ∈ ChildIds a
    · rw [pmcEarlyChild_skip _ _ _ (hx a (List.mem_cons_self a cs) hmem)]
    · exact pmcEarlyChild_st_frame _ _ _ _ hmem

theorem earlyFold_hit (fi : FatalInfo) :
    ∀ (cs : List MChild) (acc : AggSt) (c : MChild),
      cs.Pairwise IdsDisjoint → c ∈ cs →
      (matchesFatal fi c && !c.methods.isEmpty) = true → c.id ∉ c.methods →
      (cs.foldl (pmcEarlyChild fi) acc).st c.id = Outcome.Failed
      ∧ ∀ m ∈ c.methods, (cs.foldl (pmcEarlyChild fi) acc).st m = Outcome.Failed := by
  intro cs
  induction cs with
  | nil => intro acc c _ hc; cases hc
  | cons a cs ih =>
    intro acc c hpair hc hhit hid
    rw [List.pairwise_cons] at hpair
    simp only [List.foldl_cons]
    by_cases hmem : c ∈ cs
    · exact ih _ _ hpair.2 hmem hhit hid
    · have hca : c = a := by
        rcases List.mem_cons.mp hc with h | h
        · exact h
        · exact absurd h hmem
      subst hca
      rcases pmcEarlyChild_hit fi acc c hhit hid with ⟨h1, h2⟩
      constructor
      · rw [earlyFold_frame_all fi cs _ _
          (fun b hb => fun hx => hpair.1 b hb c.id (List.mem_cons_self _ _) hx), h1]
      · intro m hm
        rw [earlyFold_frame_all fi cs _ _
          (fun b hb => fun hx => hpair.1 b hb m (List.mem_cons_of_mem _ hm) hx), h2 m hm]

theorem pmcParentMark_other (inp : PmcInput) (acc : AggSt) (x : Str)
    (hx : x ≠ inp.parentId) : pmcParentMark inp acc x = acc.st x := by
  unfold pmcParentMark
  by_cases h1 : acc.found = true
  · by_cases h2 : (acc.someFailed || inp.hasFailures) = true
    · simp [h1, h2, wrOutcome_other _ _ _ _ hx]
    · by_cases h3 : acc.allPassed = true
      · by_cases h4 : (acc.ranCount == totalChildren inp.children) = true
        · simp [h1, h2, h3, h4, wrOutcome_other _ _ _ _ hx]
        · simp [h1, h2, h3, h4]
      · simp [h1, h2, h3]
  · simp [h1]

theorem pmcParentMark_not_found (inp : PmcInput) (acc : AggSt)
    (h : acc.found = false) : pmcParentMark inp acc = acc.st := by
  unfold pmcParentMark
  simp [h]

theorem pmcParentMark_failed (inp : PmcInput) (acc : AggSt)
    (h1 : acc.found = true) (h2 : (acc.someFailed || inp.hasFailures) = true) :
    pmcParentMark inp acc inp.parentId = Outcome.Failed := by
  unfold pmcParentMark
  simp [h1, h2, wrOutcome_same]

theorem pmc_early_eq (inp : PmcInput) (st0 : Str → Outcome) (fi : FatalInfo)
    (hguard : (if inp.hasFatalError && inp.results.isEmpty then inp.fatalInfo else none)
      = some fi) :
    pmc inp st0
      = pmcParentMark inp (inp.children.foldl (pmcEarlyChild fi) ⟨st0, false, true, false, 0⟩) := by
  unfold pmc
  rw [hguard]

theorem pmc_normal_eq (inp : PmcInput) (st0 : Str → Outcome)
    (hguard : (if inp.hasFatalError && inp.results.isEmpty then inp.fatalInfo else none)
      = none) :
    pmc inp st0
      = pmcParentMark inp
          (inp.children.foldl (pmcNormalChild inp.results) ⟨st0, false, true, false, 0⟩) := by
  unfold pmc
  rw [hguard]

theorem distinct_unique_child (inp : PmcInput) (hD : DistinctIds inp) :
    ∀ c ∈ inp.children, ∀ c2 ∈ inp.children, ∀ x, x ∈ ChildIds c → x ∈ ChildIds c2 →
      c = c2 := by
  intro c hc c2 hc2 x hx hx2
  by_contra hne
  have hsym : Symmetric IdsDisjoint := fun a b h => fun y hyb hya => h y hya hyb
  exact (List.Pairwise.forall hsym hD.2.1 hc hc2 hne) x hx hx2

/-- C3 counterexample: in early-abort mode (fatal error detected, no leaf
outcome parsed, error info extracted) with one file child matching the fatal
error's file, the **parent container node itself** is also marked `Failed` by
the parent-marking step — its state changes from `Unset` to `Failed` — which
refutes "the state of every other File, Suite, and Method node is left
unchanged from before the run" as stated. -/
theorem early_abort_parent_counterexample :
    pmc
      { parentId := ['p']
        children := [⟨['f'], ['x'], [['m']]⟩]
        results := []
        hasFatalError := true
        fatalInfo := some ⟨['B'], some ['x'], some 42⟩
        hasFailures := true }
      (fun _ => Outcome.Unset) ['p'] = Outcome.Failed := by
  decide

/-- C3 (amended): in early-abort mode (`detectFatalError` true, zero parsed
leaf outcomes, `extractFatalErrorInfo` non-null) `parseAndMarkChildren` marks
exactly the file children whose (non-empty) path contains the fatal error's
file — each such file and all of its methods become `Failed` — and
additionally marks the parent container node `Failed` when at least one such
file exists; every other child node (file or method) keeps its state from
before the run, and so does the parent when no file matches. -/
theorem early_abort_scoping (inp : PmcInput) (st0 : Str → Outcome) (fi : FatalInfo)
    (hD : DistinctIds inp)
    (hfatal : inp.hasFatalError = true) (hempty : inp.results = [])
    (hinfo : inp.fatalInfo = some fi) :
    (∀ c ∈ inp.children, ¬((matchesFatal fi c && !c.methods.isEmpty) = true) →
      ∀ x ∈ ChildIds c, pmc inp st0 x = st0 x)
    ∧ (∀ c ∈ inp.children, (matchesFatal fi c && !c.methods.isEmpty) = true →
        pmc inp st0 c.id = Outcome.Failed
        ∧ ∀ m ∈ c.methods, pmc inp st0 m = Outcome.Failed)
    ∧ ((∃ c ∈ inp.children, (matchesFatal fi c && !c.methods.isEmpty) = true) →
        pmc inp st0 inp.parentId = Outcome.Failed)
    ∧ ((∀ c ∈ inp.children, ¬((matchesFatal fi c && !c.methods.isEmpty) = true)) →
        pmc inp st0 inp.parentId = st0 inp.parentId) := by
  have hguard : (if inp.hasFatalError && inp.results.isEmpty then inp.fatalInfo else none)
      = some fi := by
    rw [hfatal, hempty, hinfo]
    rfl
  rw [pmc_early_eq inp st0 fi hguard]
  refine ⟨?_, ?_, ?_, ?_⟩
  · intro c hc hnohit x hx
    have hxp : x ≠ inp.parentId := fun h => hD.2.2 c hc (h ▸ hx)
    rw [pmcParentMark_other _ _ _ hxp]
    refine (earlyFold_frame_cond fi inp.children _ x ?_)
    intro c2 hc2 hx2
    have : c = c2 := distinct_unique_child inp hD c hc c2 hc2 x hx hx2
    rw [← this]
    exact hnohit
  · intro c hc hhit
    have hid : c.id ∉ c.methods := by
      have := hD.1 c hc
      rw [ChildIds, List.nodup_cons] at this
      exact this.1
    have hres := earlyFold_hit fi inp.children ⟨st0, false, true, false, 0⟩ c hD.2.1 hc hhit hid
    constructor
    · have hxp : c.id ≠ inp.parentId :=
        fun h => hD.2.2 c hc (h ▸ List.mem_cons_self _ _)
      rw [pmcParentMark_other _ _ _ hxp]
      exact hres.1
    · intro m hm
      have hxp : m ≠ inp.parentId :=
        fun h => hD.2.2 c hc (h ▸ List.mem_cons_of_mem _ hm)
      rw [pmcParentMark_other _ _ _ hxp]
      exact hres.2 m hm
  · intro hex
    have hfound : (inp.children.foldl (pmcEarlyChild fi) ⟨st0, false, true, false, 0⟩).found
        = true := by
      rw [earlyFold_found]
      rcases hex with ⟨c, hc, hhit⟩
      simp only [Bool.false_or]
      exact List.any_eq_true.mpr ⟨c, hc, hhit⟩
    have hsf : (inp.children.foldl (pmcEarlyChild fi) ⟨st0, false, true, false, 0⟩).someFailed
        = true := by
      rw [(earlyFold_flags fi inp.children _).2.2]
      rcases hex with ⟨c, hc, hhit⟩
      simp only [Bool.false_or]
      exact List.any_eq_true.mpr ⟨c, hc, hhit⟩
    rw [pmcParentMark_failed _ _ hfound (by rw [hsf]; rfl)]
  · intro hnone
    have hfound : (inp.children.foldl (pmcEarlyChild fi) ⟨st0, false, true, false, 0⟩).found
        = false := by
      rw [earlyFold_found]
      simp only [Bool.false_or, List.any_eq_false]
      intro c hc
      exact fun h => hnone c hc h
    rw [pmcParentMark_not_found _ _ hfound]
    refine earlyFold_frame_cond fi inp.children _ _ ?_
    intro c hc hx
    exact absurd hx (fun h => hD.2.2 c hc h)

/-- C3 witness: the amended scoping applied at a run with one matching and
one non-matching file child, from a prior state where everything is
`Unset`. -/
theorem early_abort_scoping_witness :
    pmc
      { parentId := ['p']
        children := [⟨['f'], ['x'], [['m']]⟩, ⟨['g'], ['y'], [['n']]⟩]
        results := []
        hasFatalError := true
        fatalInfo := some ⟨['B'], some ['x'], some 7⟩
        hasFailures := true }
      (fun _ => Outcome.Unset) ['n'] = Outcome.Unset := by
  have h := early_abort_scoping
    { parentId := ['p']
      children := [⟨['f'], ['x'], [['m']]⟩, ⟨['g'], ['y'], [['n']]⟩]
      results := []
      hasFatalError := true
      fatalInfo := some ⟨['B'], some ['x'], some 7⟩
      hasFailures := true }
    (fun _ => Outcome.Unset) ⟨['B'], some ['x'], some 7⟩
    (by
      refine ⟨?_, ?_, ?_⟩
      · intro c hc
        simp only [List.mem_cons, List.mem_singleton] at hc
        rcases hc with rfl | hc
        · decide
        · rcases hc with rfl | hc
          · decide
          · cases hc
      · refine List.Pairwise.cons ?_ ?_
        · intro b hb
          simp only [List.mem_singleton] at hb
          subst hb
          unfold IdsDisjoint
          decide
        · exact List.pairwise_singleton _ _
      · intro c hc
        simp only [List.mem_cons, List.mem_singleton] at hc
        rcases hc with rfl | hc
        · decide
        · rcases hc with rfl | hc
          · decide
          · cases hc)
    rfl rfl rfl
  exact h.1 ⟨['g'], ['y'], [['n']]⟩ (by simp) (by decide) ['n'] (by decide)

/-- The outcome a method receives in the normal branch, as a function of its
parsed result: a parsed pass or fail, or assumed-passed when unseen. -/
def outcomeOf : Option Bool → Outcome
  | some r => if r then Outcome.Passed else Outcome.Failed
  | none => Outcome.Passed

theorem outcomeOf_terminal (v : Option Bool) :
    outcomeOf v = Outcome.Passed ∨ outcomeOf v = Outcome.Failed := by
  cases v with
  | none => left; rfl
  | some r => cases r <;> simp [outcomeOf]

theorem pmcMethod_frame (results : List (Str × Bool)) (fa : FileAgg) (m : Str) (x : Str)
    (hx : x ≠ m) : (pmcMethod results fa m).st x = fa.st x := by
  unfold pmcMethod
  cases mget results (extractMethodName m) with
  | none => simp [wrOutcome_other _ _ _ _ hx]
  | some r => cases r <;> simp [wrOutcome_other _ _ _ _ hx]

theorem pmcMethod_val (results : List (Str × Bool)) (fa : FileAgg) (m : Str) :
    (pmcMethod results fa m).st m = outcomeOf (mget results (extractMethodName m)) := by
  unfold pmcMethod outcomeOf
  cases mget results (extractMethodName m) with
  | none => simp [wrOutcome_same]
  | some r => cases r <;> simp [wrOutcome_same]

theorem methodFold_frame (results : List (Str × Bool)) :
    ∀ (ms : List Str) (fa : FileAgg) (x : Str), x ∉ ms →
      (ms.foldl (pmcMethod results) fa).st x = fa.st x := by
  intro ms
  induction ms with
  | nil => intro fa x _; rfl
  | cons a ms ih =>
    intro fa x hx
    simp only [List.foldl_cons]
    rw [ih _ _ (fun h => hx (List.mem_cons_of_mem _ h)),
      pmcMethod_frame _ _ _ _ (fun h => hx (by rw [h]; exact List.mem_cons_self a ms))]

theorem methodFold_val (results : List (Str × Bool)) :
    ∀ (ms : List Str) (fa : FileAgg) (m : Str), m ∈ ms → ms.Nodup →
      (ms.foldl (pmcMethod results) fa).st m
        = outcomeOf (mget results (extractMethodName m)) := by
  intro ms
  induction ms with
  | nil => intro fa m h; cases h
  | cons a ms ih =>
    intro fa m hm hnd
    rw [List.nodup_cons] at hnd
    simp only [List.foldl_cons]
    by_cases hmem : m ∈ ms
    · exact ih _ _ hmem hnd.2
    · have hma : m = a := by
        rcases List.mem_cons.mp hm with h | h
        · exact h
        · exact absurd h hmem
      subst hma
      rw [methodFold_frame _ _ _ _ hmem, pmcMethod_val]

theorem pmcNormalChild_frame (results : List (Str × Bool)) (acc : AggSt) (c : MChild)
    (x : Str) (hx : x ∉ ChildIds c) :
    (pmcNormalChild results acc c).st x = acc.st x := by
  have hxid : x ≠ c.id := fun h => hx (h ▸ List.mem_cons_self _ _)
  have hxm : x ∉ c.methods := fun h => hx (List.mem_cons_of_mem _ h)
  unfold pmcNormalChild
  by_cases hemp : c.methods.isEmpty = true
  · simp only [hemp, if_true]
    cases mget results (extractMethodName c.id) with
    | none => simp [wrOutcome_other _ _ _ _ hxid]
    | some r => cases r <;> simp [wrOutcome_other _ _ _ _ hxid]
  · simp only [hemp, Bool.false_eq_true, if_false]
    have hfold : ∀ fa : FileAgg,
        (c.methods.foldl (pmcMethod results) fa).st x = fa.st x :=
      fun fa => methodFold_frame results c.methods fa x hxm
    by_cases h1 : (c.methods.foldl (pmcMethod results)
        ⟨wrOutcome acc.st c.id Outcome.Running, false, true, false, 0, acc.found,
          acc.allPassed, acc.someFailed, acc.ranCount⟩).fileHad = true
    · simp only [h1, if_true]
      by_cases h2 : (c.methods.foldl (pmcMethod results)
          ⟨wrOutcome acc.st c.id Outcome.Running, false, true, false, 0, acc.found,
            acc.allPassed, acc.someFailed, acc.ranCount⟩).fileSomeFailed = true
      · simp only [h2, if_true]
        rw [wrOutcome_other _ _ _ _ hxid, hfold]
        exact wrOutcome_other _ _ _ _ hxid
      · simp only [h2, Bool.false_eq_true, if_false]
        by_cases h3 : ((c.methods.foldl (pmcMethod results)
            ⟨wrOutcome acc.st c.id Outcome.Running, false, true, false, 0, acc.found,
              acc.allPassed, acc.someFailed, acc.ranCount⟩).fileAllPassed
            && (c.methods.foldl (pmcMethod results)
            ⟨wrOutcome acc.st c.id Outcome.Running, false, true, false, 0, acc.found,
              acc.allPassed, acc.someFailed, acc.ranCount⟩).fileRan
              == c.methods.length) = true
        · simp only [h3, if_true]
          rw [wrOutcome_other _ _ _ _ hxid, hfold]
          exact wrOutcome_other _ _ _ _ hxid
        · simp only [h3, Bool.false_eq_true, if_false]
          rw [hfold]
          exact wrOutcome_other _ _ _ _ hxid
    · simp only [h1, Bool.false_eq_true, if_false]
      rw [hfold]
      exact wrOutcome_other _ _ _ _ hxid

theorem pmcNormalChild_method_val (results : List (Str × Bool)) (acc : AggSt) (c : MChild)
    (m : Str) (hm : m ∈ c.methods) (hnd : (ChildIds c).Nodup) :
    (pmcNormalChild results acc c).st m
      = outcomeOf (mget results (extractMethodName m)) := by
  rw [ChildIds, List.nodup_cons] at hnd
  have hmid : m ≠ c.id := fun h => hnd.1 (h ▸ hm)
  have hemp : ¬(c.methods.isEmpty = true) := by
    cases hms : c.methods with
    | nil => rw [hms] at hm; cases hm
    | cons a ms => simp
  unfold pmcNormalChild
  simp only [hemp, Bool.false_eq_true, if_false]
  have hval : ∀ fa : FileAgg,
      (c.methods.foldl (pmcMethod results) fa).st m
        = outcomeOf (mget results (extractMethodName m)) :=
    fun fa => methodFold_val results c.methods fa m hm hnd.2
  by_cases h1 : (c.methods.foldl (pmcMethod results)
      ⟨wrOutcome acc.st c.id Outcome.Running, false, true, false, 0, acc.found,
        acc.allPassed, acc.someFailed, acc.ranCount⟩).fileHad = true
  · simp only [h1, if_true]
    by_cases h2 : (c.methods.foldl (pmcMethod results)
        ⟨wrOutcome acc.st c.id Outcome.Running, false, true, false, 0, acc.found,
          acc.allPassed, acc.someFailed, acc.ranCount⟩).fileSomeFailed = true
    · simp only [h2, if_true]
      rw [wrOutcome_other _ _ _ _ hmid, hval]
    · simp only [h2, Bool.false_eq_true, if_false]
      by_cases h3 : ((c.methods.foldl (pmcMethod results)
          ⟨wrOutcome acc.st c.id Outcome.Running, false, true, false, 0, acc.found,
            acc.allPassed, acc.someFailed, acc.ranCount⟩).fileAllPassed
          && (c.methods.foldl (pmcMethod results)
          ⟨wrOutcome acc.st c.id Outcome.Running, false, true, false, 0, acc.found,
            acc.allPassed, acc.someFailed, acc.ranCount⟩).fileRan
            == c.methods.length) = true
      · simp only [h3, if_true]
        rw [wrOutcome_other _ _ _ _ hmid, hval]
      · simp only [h3, Bool.false_eq_true, if_false]
        rw [hval]
  · simp only [h1, Bool.false_eq_true, if_false]
    rw [hval]

theorem pmcNormalChild_leaf_val (results : List (Str × Bool)) (acc : AggSt) (c : MChild)
    (hleaf : c.methods = []) :
    (pmcNormalChild results acc c).st c.id
      = outcomeOf (mget results (extractMethodName c.id)) := by
  unfold pmcNormalChild
  simp only [hleaf, List.isEmpty_nil, if_true]
  cases mget results (extractMethodName c.id) with
  | none => simp [outcomeOf, wrOutcome_same]
  | some r => cases r <;> simp [outcomeOf, wrOutcome_same]

theorem normalFold_frame_all (results : List (Str × Bool)) :
    ∀ (cs : List MChild) (acc : AggSt) (x : Str),
      (∀ c ∈ cs, x ∉ ChildIds c) →
      (cs.foldl (pmcNormalChild results) acc).st x = acc.st x := by
  intro cs
  induction cs with
  | nil => intro acc x _; rfl
  | cons a cs ih =>
    intro acc x hx
    simp only [List.foldl_cons]
    rw [ih _ _ (fun c hc => hx c (List.mem_cons_of_mem _ hc)),
      pmcNormalChild_frame _ _ _ _ (hx a (List.mem_cons_self a cs))]

theorem normalFold_method_val (results : List (Str × Bool)) :
    ∀ (cs : List MChild) (acc : AggSt) (c : MChild) (m : Str),
      cs.Pairwise IdsDisjoint → c ∈ cs → (ChildIds c).Nodup → m ∈ c.methods →
      (cs.foldl (pmcNormalChild results) acc).st m
        = outcomeOf (mget results (extractMethodName m)) := by
  intro cs
  induction cs with
  | nil => intro acc c m _ hc; cases hc
  | cons a cs ih =>
    intro acc c m hpair hc hnd hm
    rw [List.pairwise_cons] at hpair
    simp only [List.foldl_cons]
    by_cases hmem : c ∈ cs
    · exact ih _ _ _ hpair.2 hmem hnd hm
    · have hca : c = a := by
        rcases List.mem_cons.mp hc with h | h
        · exact h
        · exact absurd h hmem
      subst hca
      rw [normalFold_frame_all results cs _ _
        (fun b hb => fun hxb => hpair.1 b hb m (List.mem_cons_of_mem _ hm) hxb)]
      exact pmcNormalChild_method_val results acc c m hm hnd

theorem normalFold_leaf_val (results : List (Str × Bool)) :
    ∀ (cs : List MChild) (acc : AggSt) (c : MChild),
      cs.Pairwise IdsDisjoint → c ∈ cs → c.methods = [] →
      (cs.foldl (pmcNormalChild results) acc).st c.id
        = outcomeOf (mget results (extractMethodName c.id)) := by
  intro cs
  induction cs with
  | nil => intro acc c _ hc; cases hc
  | cons a cs ih =>
    intro acc c hpair hc hleaf
    rw [List.pairwise_cons] at hpair
    simp only [List.foldl_cons]
    by_cases hmem : c ∈ cs
    · exact ih _ _ hpair.2 hmem hleaf
    · have hca : c = a := by
        rcases List.mem_cons.mp hc with h | h
        · exact h
        · exact absurd h hmem
      subst hca
      rw [normalFold_frame_all results cs _ _
        (fun b hb => fun hxb => hpair.1 b hb c.id (List.mem_cons_self _ _) hxb)]
      exact pmcNormalChild_leaf_val results acc c hleaf

theorem markUnseen_preserve (seen : List Str) :
    ∀ (entries : List (Str × Str)) (st : Str → Outcome) (item : Str),
      st item = Outcome.Passed →
      markUnseenTests entries seen st item = Outcome.Passed := by
  intro entries
  induction entries with
  | nil => intro st item h; exact h
  | cons e es ih =>
    intro st item h
    have step : markUnseenTests (e :: es) seen st
        = markUnseenTests es seen
            (if e.1 ∈ seen then st
             else wrOutcome (wrOutcome st e.2 Outcome.Running) e.2 Outcome.Passed) := rfl
    rw [step]
    by_cases hseen : e.1 ∈ seen
    · rw [if_pos hseen]
      exact ih st item h
    · rw [if_neg hseen]
      refine ih _ item ?_
      by_cases hit : item = e.2
      · rw [hit]
        exact wrOutcome_same _ _ _
      · rw [wrOutcome_other _ _ _ _ hit, wrOutcome_other _ _ _ _ hit]
        exact h

theorem markUnseen_passed (seen : List Str) :
    ∀ (entries : List (Str × Str)) (st : Str → Outcome) (name item : Str),
      (name, item) ∈ entries → name ∉ seen →
      markUnseenTests entries seen st item = Outcome.Passed := by
  intro entries
  induction entries with
  | nil => intro st name item h; cases h
  | cons e es ih =>
    intro st name item hmem hns
    have step : markUnseenTests (e :: es) seen st
        = markUnseenTests es seen
            (if e.1 ∈ seen then st
             else wrOutcome (wrOutcome st e.2 Outcome.Running) e.2 Outcome.Passed) := rfl
    rw [step]
    rcases List.mem_cons.mp hmem with heq | hmem'
    · subst heq
      rw [if_neg hns]
      exact markUnseen_preserve seen es _ item (wrOutcome_same _ _ _)
    · by_cases hseen : e.1 ∈ seen
      · rw [if_pos hseen]
        exact ih st name item hmem' hns
      · rw [if_neg hseen]
        exact ih _ name item hmem' hns

theorem reconcile_untouched (entries : List (Str × JStatus)) (testNameMap : Str → Option Str)
    (testResults : Str → Option Bool) (item : Str)
    (hnone : ∀ p ∈ entries, testNameMap p.1 ≠ some item) :
    ∀ rs : RecState,
      (reconcileEntries entries testNameMap testResults rs).runState item
        = rs.runState item := by
  unfold reconcileEntries
  generalize entries.map Prod.fst = keys
  induction entries with
  | nil => intro rs; rfl
  | cons p es ih =>
    intro rs
    simp only [List.foldl_cons]
    rw [ih (fun q hq => hnone q (List.mem_cons_of_mem _ hq))]
    rcases reconcileStep_item_cases keys testNameMap testResults rs p item with h | ⟨hm, _⟩
    · exact h
    · exact absurd hm (hnone p (List.mem_cons_self _ _))

theorem not_early_guard (inp : PmcInput)
    (h : ¬(inp.hasFatalError = true ∧ inp.results = [] ∧ inp.fatalInfo ≠ none)) :
    (if inp.hasFatalError && inp.results.isEmpty then inp.fatalInfo else none) = none := by
  by_cases hb : (inp.hasFatalError && inp.results.isEmpty) = true
  · rw [if_pos hb]
    rw [Bool.and_eq_true] at hb
    by_contra hn
    apply h
    refine ⟨hb.1, ?_, hn⟩
    cases hres : inp.results with
    | nil => rfl
    | cons a l =>
      rw [hres] at hb
      exact absurd hb.2 (by simp)
  · rw [if_neg hb]

/-- C2: default-pass law.  A leaf method node mentioned by no streaming
outcome, in a run that is not in early-abort mode and whose siblings have no
recorded failure, is reported `Passed`: the unseen branch of
`parseAndMarkChildren` marks it passed, `markUnseenTests` marks every
unseen-name entry passed, and reconciliation leaves a node with no resolving
report entry untouched. -/
theorem default_pass_law (inp : PmcInput) (st0 : Str → Outcome)
    (hD : DistinctIds inp)
    (hnoabort : ¬(inp.hasFatalError = true ∧ inp.results = [] ∧ inp.fatalInfo ≠ none))
    (c : MChild) (hc : c ∈ inp.children) (m : Str) (hm : m ∈ c.methods)
    (hunstreamed : mget inp.results (extractMethodName m) = none)
    (hsib : ∀ m2 ∈ c.methods, mget inp.results (extractMethodName m2) ≠ some false)
    (entries : List (Str × Str)) (seen : List Str) (stm : Str → Outcome)
    (name item : Str) (hen : (name, item) ∈ entries) (hnseen : name ∉ seen)
    (xentries : List (Str × JStatus)) (testNameMap : Str → Option Str)
    (testResults : Str → Option Bool) (rsu : RecState)
    (hnorep : ∀ p ∈ xentries, testNameMap p.1 ≠ some item) :
    pmc inp st0 m = Outcome.Passed
    ∧ markUnseenTests entries seen stm item = Outcome.Passed
    ∧ (reconcileEntries xentries testNameMap testResults rsu).runState item
        = rsu.runState item := by
  refine ⟨?_, markUnseen_passed seen entries stm name item hen hnseen,
    reconcile_untouched xentries testNameMap testResults item hnorep rsu⟩
  rw [pmc_normal_eq inp st0 (not_early_guard inp hnoabort)]
  have hmp : m ≠ inp.parentId := fun h => hD.2.2 c hc (h ▸ List.mem_cons_of_mem _ hm)
  rw [pmcParentMark_other _ _ _ hmp,
    normalFold_method_val inp.results inp.children _ c m hD.2.1 hc (hD.1 c hc) hm,
    hunstreamed]
  rfl

/-- C2 witness: a method never mentioned in the output of a normal run ends
up `Passed` on all three paths. -/
theorem default_pass_law_witness :
    pmc
      { parentId := ['p']
        children := [⟨['f'], ['u'], [['m']]⟩]
        results := []
        hasFatalError := false
        fatalInfo := none
        hasFailures := false }
      (fun _ => Outcome.Unset) ['m'] = Outcome.Passed := by
  have h := default_pass_law
    { parentId := ['p']
      children := [⟨['f'], ['u'], [['m']]⟩]
      results := []
      hasFatalError := false
      fatalInfo := none
      hasFailures := false }
    (fun _ => Outcome.Unset)
    (by
      refine ⟨?_, ?_, ?_⟩
      · intro c hc
        simp only [List.mem_singleton] at hc
        subst hc
        decide
      · exact List.pairwise_singleton _ _
      · intro c hc
        simp only [List.mem_singleton] at hc
        subst hc
        decide)
    (by
      rintro ⟨h1, -, -⟩
      exact absurd h1 (by decide))
    ⟨['f'], ['u'], [['m']]⟩ (by simp) ['m'] (by decide)
    rfl
    (by
      intro m2 _ hcontra
      simp [mget] at hcontra)
    [(['a'], ['i'])] [] (fun _ => Outcome.Unset) ['a'] ['i'] (by decide) (by decide)
    [] (fun _ => none) (fun _ => none) ⟨[], fun _ => Outcome.Unset⟩
    (by
      intro p hp
      cases hp)
  exact h.1

/-- The declared leaves under the parent, as counted by `totalChildren`: a
file child contributes its methods, a leaf child contributes itself. -/
def parentLeaves (children : List MChild) : List Str :=
  children.flatMap (fun c => if c.methods.isEmpty then [c.id] else c.methods)

/-- Terminal outcomes of the data model. -/
abbrev isTerminal (o : Outcome) : Prop :=
  o = Outcome.Passed ∨ o = Outcome.Failed ∨ o = Outcome.Skipped

theorem isTerminal_outcomeOf (v : Option Bool) : isTerminal (outcomeOf v) := by
  rcases outcomeOf_terminal v with h | h
  · exact Or.inl h
  · exact Or.inr (Or.inl h)

/-- C5: partial-run law.  Starting from a fresh (all-`Unset`) run table, a
container — a file child with declared methods, or the parent — that has a
declared leaf with no terminal outcome for this run and no leaf that failed
is given no verdict by `parseAndMarkChildren`: it remains `Unset`, so in
particular it is never marked `Passed`. -/
theorem partial_run_law (inp : PmcInput) (hD : DistinctIds inp) :
    (∀ c ∈ inp.children, c.methods ≠ [] →
      (∃ m ∈ c.methods, ¬ isTerminal (pmc inp (fun _ => Outcome.Unset) m)) →
      (∀ m ∈ c.methods, pmc inp (fun _ => Outcome.Unset) m ≠ Outcome.Failed) →
      pmc inp (fun _ => Outcome.Unset) c.id = Outcome.Unset)
    ∧ ((∃ l ∈ parentLeaves inp.children,
          ¬ isTerminal (pmc inp (fun _ => Outcome.Unset) l)) →
       (∀ l ∈ parentLeaves inp.children,
          pmc inp (fun _ => Outcome.Unset) l ≠ Outcome.Failed) →
       pmc inp (fun _ => Outcome.Unset) inp.parentId = Outcome.Unset) := by
  cases hg : (if inp.hasFatalError && inp.results.isEmpty then inp.fatalInfo else none) with
  | none =>
    have hterm : ∀ l ∈ parentLeaves inp.children,
        isTerminal (pmc inp (fun _ => Outcome.Unset) l) := by
      intro l hl
      rw [parentLeaves, List.mem_flatMap] at hl
      rcases hl with ⟨c, hc, hlc⟩
      by_cases hemp : c.methods = []
      · rw [hemp] at hlc
        simp only [List.isEmpty_nil, if_true, List.mem_singleton] at hlc
        subst hlc
        have hlp : c.id ≠ inp.parentId :=
          fun h => hD.2.2 c hc (h ▸ List.mem_cons_self _ _)
        rw [pmc_normal_eq inp _ hg, pmcParentMark_other _ _ _ hlp,
          normalFold_leaf_val inp.results inp.children _ c hD.2.1 hc hemp]
        exact isTerminal_outcomeOf _
      · have hisemp : c.methods.isEmpty = false := by
          cases hms : c.methods with
          | nil => exact absurd hms hemp
          | cons a ms => rfl
        rw [hisemp] at hlc
        simp only [Bool.false_eq_true, if_false] at hlc
        have hlp : l ≠ inp.parentId :=
          fun h => hD.2.2 c hc (h ▸ List.mem_cons_of_mem _ hlc)
        rw [pmc_normal_eq inp _ hg, pmcParentMark_other _ _ _ hlp,
          normalFold_method_val inp.results inp.children _ c l hD.2.1 hc (hD.1 c hc) hlc]
        exact isTerminal_outcomeOf _
    constructor
    · intro c hc hnemp hex _
      rcases hex with ⟨m, hm, hnt⟩
      have hisemp : c.methods.isEmpty = false := by
        cases hms : c.methods with
        | nil => exact absurd hms hnemp
        | cons a ms => rfl
      have hmem : m ∈ parentLeaves inp.children := by
        rw [parentLeaves, List.mem_flatMap]
        exact ⟨c, hc, by rw [hisemp]; simpa using hm⟩
      exact absurd (hterm m hmem) hnt
    · intro hex _
      rcases hex with ⟨l, hl, hnt⟩
      exact absurd (hterm l hl) hnt
  | some fi =>
    constructor
    · intro c hc hnemp hex hnof
      by_cases hhit : (matchesFatal fi c && !c.methods.isEmpty) = true
      · exfalso
        rcases List.exists_mem_of_ne_nil c.methods hnemp with ⟨m, hm⟩
        have hid : c.id ∉ c.methods := by
          have := hD.1 c hc
          rw [ChildIds, List.nodup_cons] at this
          exact this.1
        have hfail :=
          (earlyFold_hit fi inp.children ⟨fun _ => Outcome.Unset, false, true, false, 0⟩
            c hD.2.1 hc hhit hid).2 m hm
        have hmp : m ≠ inp.parentId :=
          fun h => hD.2.2 c hc (h ▸ List.mem_cons_of_mem _ hm)
        have hfailed : pmc inp (fun _ => Outcome.Unset) m = Outcome.Failed := by
          rw [pmc_early_eq inp _ fi hg, pmcParentMark_other _ _ _ hmp]
          exact hfail
        exact hnof m hm hfailed
      · have hcp : c.id ≠ inp.parentId :=
          fun h => hD.2.2 c hc (h ▸ List.mem_cons_self _ _)
        rw [pmc_early_eq inp _ fi hg, pmcParentMark_other _ _ _ hcp,
          earlyFold_frame_cond fi inp.children _ c.id ?_]
        intro c2 hc2 hx2
        have : c = c2 := distinct_unique_child inp hD c hc c2 hc2 c.id
          (List.mem_cons_self _ _) hx2
        rw [← this]
        exact hhit
    · intro hex hnof
      by_cases hhit : ∃ c ∈ inp.children, (matchesFatal fi c && !c.methods.isEmpty) = true
      · exfalso
        rcases hhit with ⟨c, hc, hhitc⟩
        have hnemp : c.methods ≠ [] := by
          intro h
          rw [h] at hhitc
          simp at hhitc
        rcases List.exists_mem_of_ne_nil c.methods hnemp with ⟨m, hm⟩
        have hid : c.id ∉ c.methods := by
          have := hD.1 c hc
          rw [ChildIds, List.nodup_cons] at this
          exact this.1
        have hfail :=
          (earlyFold_hit fi inp.children ⟨fun _ => Outcome.Unset, false, true, false, 0⟩
            c hD.2.1 hc hhitc hid).2 m hm
        have hmp : m ≠ inp.parentId :=
          fun h => hD.2.2 c hc (h ▸ List.mem_cons_of_mem _ hm)
        have hfailed : pmc inp (fun _ => Outcome.Unset) m = Outcome.Failed := by
          rw [pmc_early_eq inp _ fi hg, pmcParentMark_other _ _ _ hmp]
          exact hfail
        have hisemp : c.methods.isEmpty = false := by
          cases hms : c.methods with
          | nil => exact absurd hms hnemp
          | cons a ms => rfl
        have hmem : m ∈ parentLeaves inp.children := by
          rw [parentLeaves, List.mem_flatMap]
          exact ⟨c, hc, by rw [hisemp]; simpa using hm⟩
        exact hnof m hmem hfailed
      · have hfound : (inp.children.foldl (pmcEarlyChild fi)
            ⟨fun _ => Outcome.Unset, false, true, false, 0⟩).found = false := by
          rw [earlyFold_found]
          simp only [Bool.false_or, List.any_eq_false]
          intro c hc
          exact fun h => hhit ⟨c, hc, h⟩
        rw [pmc_early_eq inp _ fi hg, pmcParentMark_not_found _ _ hfound,
          earlyFold_frame_cond fi inp.children _ inp.parentId ?_]
        intro c2 hc2 hx2
        exact absurd hx2 (fun h => hD.2.2 c2 hc2 h)

/-- C5 witness: in an early-abort run where the fatal error points at one
file, a sibling file whose method never ran (and did not fail) is left
`Unset`. -/
theorem partial_run_law_witness :
    pmc
      { parentId := ['p']
        children := [⟨['f'], ['x'], [['m']]⟩, ⟨['g'], ['y'], [['n']]⟩]
        results := []
        hasFatalError := true
        fatalInfo := some ⟨['B'], some ['x'], some 7⟩
        hasFailures := true }
      (fun _ => Outcome.Unset) ['g'] = Outcome.Unset := by
  have h := partial_run_law
    { parentId := ['p']
      children := [⟨['f'], ['x'], [['m']]⟩, ⟨['g'], ['y'], [['n']]⟩]
      results := []
      hasFatalError := true
      fatalInfo := some ⟨['B'], some ['x'], some 7⟩
      hasFailures := true }
    (by
      refine ⟨?_, ?_, ?_⟩
      · intro c hc
        simp only [List.mem_cons, List.mem_singleton] at hc
        rcases hc with rfl | hc
        · decide
        · rcases hc with rfl | hc
          · decide
          · cases hc
      · refine List.Pairwise.cons ?_ ?_
        · intro b hb
          simp only [List.mem_singleton] at hb
          subst hb
          unfold IdsDisjoint
          decide
        · exact List.pairwise_singleton _ _
      · intro c hc
        simp only [List.mem_cons, List.mem_singleton] at hc
        rcases hc with rfl | hc
        · decide
        · rcases hc with rfl | hc
          · decide
          · cases hc)
  refine h.1 ⟨['g'], ['y'], [['n']]⟩ (by simp) (by decide) ⟨['n'], by decide, ?_⟩ ?_
  · intro hterm
    have : pmc
        { parentId := ['p']
          children := [⟨['f'], ['x'], [['m']]⟩, ⟨['g'], ['y'], [['n']]⟩]
          results := []
          hasFatalError := true
          fatalInfo := some ⟨['B'], some ['x'], some 7⟩
          hasFailures := true }
        (fun _ => Outcome.Unset) ['n'] = Outcome.Unset := by decide
    rw [this] at hterm
    rcases hterm with h1 | h1 | h1 <;> cases h1
  · intro m hm
    have hmn : m = ['n'] := by
      simpa using hm
    subst hmn
    have : pmc
        { parentId := ['p']
          children := [⟨['f'], ['x'], [['m']]⟩, ⟨['g'], ['y'], [['n']]⟩]
          results := []
          hasFatalError := true
          fatalInfo := some ⟨['B'], some ['x'], some 7⟩
          hasFailures := true }
        (fun _ => Outcome.Unset) ['n'] = Outcome.Unset := by decide
    rw [this]
    intro hcontra
    cases hcontra
